import Mathlib

/-!
# KnightlyPhoneNumbers

A shallow embedding of `main.go`: the function `validPhoneNumbers`, which counts
the digit sequences of a given length that a chess knight can press on a phone
keypad when it may not start on `0` or `1`, and the driver `main` that prints
the counts for the lengths 1 to 10.

Go values of type `int` that hold counts are integers; the addition used on
them is a parameter of the embedding, so that the same definitions give the
function over exact integers (`validPhoneNumbers`), over 64-bit
two's-complement integers whose addition wraps (`validPhoneNumbers64`), and
over 64-bit integers with an addition that stops the run when the exact sum
does not fit (`validPhoneNumbersChecked64`, used to state that no addition
overflows). Slice indices and digits are natural numbers. A slice access out
of range makes the Go program fail, so every slice access returns an `Option`,
and a run is `none` when a slice access is out of range or the addition stops
it.

The function is embedded a second time with its slices in a memory that
persists from one call to the next and with the map held by the runtime in an
arbitrary order (`validPhoneNumbersIn`), to state that a call depends on
neither.
-/

namespace KnightlyPhoneNumbers

/-! ## The program -/

/-- A Go slice of `int`. -/
abbrev Row := List Int

/-- Addition of Go `int` over exact integers. -/
def exactAdd (a b : Int) : Option Int := some (a + b)

/-- Addition of Go `int` as a 64-bit two's-complement integer: the sum wraps
modulo `2^64` into the range `[-2^63, 2^63)`. -/
def wrapAdd64 (a b : Int) : Option Int := some ((a + b + 2 ^ 63) % 2 ^ 64 - 2 ^ 63)

/-- Addition of 64-bit integers that yields the sum only when the exact sum is
in the range `[-2^63, 2^63)`, that is when the Go addition does not overflow. -/
def checkedAdd64 (a b : Int) : Option Int :=
  if -(2 ^ 63) ≤ a + b ∧ a + b < 2 ^ 63 then some (a + b) else none

/-- The map literal `possibleMoves` (main.go, lines 73-84). A key that is not
in a Go map yields the zero value, the nil slice. -/
def possibleMoves : Nat → List Nat
  | 0 => [4, 6]
  | 1 => [6, 8]
  | 2 => [7, 9]
  | 3 => [4, 8]
  | 4 => [0, 3, 9]
  | 5 => []
  | 6 => [0, 1, 7]
  | 7 => [2, 6]
  | 8 => [1, 3]
  | 9 => [2, 4]
  | _ => []

/-- The slice literal that initialises `previousRow` (line 70). -/
def baseRow : Row := [0, 0, 1, 1, 1, 1, 1, 1, 1, 1]

/-- The slice literal that initialises `nextRow` (line 71). -/
def zeroedRow : Row := [0, 0, 0, 0, 0, 0, 0, 0, 0, 0]

/-- The loop `for i, _ := range nextRow { nextRow[i] = 0 }` (lines 90-92). -/
def zeroRow (nextRow : Row) : Row :=
  (List.range nextRow.length).foldl (fun row i => row.set i 0) nextRow

/-- The statement `nextRow[i] += previousRow[v]` (line 98); `none` when one of
the two indices is out of range. -/
def accumulateMove (add : Int → Int → Option Int) (previousRow : Row) (i : Nat)
    (nextRow : Row) (v : Nat) : Option Row :=
  match nextRow[i]?, previousRow[v]? with
  | some a, some b => (add a b).map (nextRow.set i)
  | _, _ => none

/-- The loop `for _, v := range possibleMoves[i]` (lines 97-99). -/
def accumulateMoves (add : Int → Int → Option Int) (previousRow : Row)
    (nextRow : Row) (i : Nat) : Option Row :=
  (possibleMoves i).foldlM (accumulateMove add previousRow i) nextRow

/-- The loop `for i := 0; i < 10; i++` (lines 95-101). -/
def accumulateRow (add : Int → Int → Option Int) (previousRow nextRow : Row) : Option Row :=
  (List.range 10).foldlM (accumulateMoves add previousRow) nextRow

/-- The builtin `copy(dst, src)`: the first `min (len dst) (len src)` elements
of `dst` are replaced by those of `src`. -/
def copy (dst src : Row) : Row :=
  src.take (min dst.length src.length) ++ dst.drop (min dst.length src.length)

/-- One execution of the body of the outer loop (lines 89-104), on the pair
`(previousRow, nextRow)`. -/
def loopBody (add : Int → Int → Option Int) (previousRow nextRow : Row) : Option (Row × Row) :=
  match accumulateRow add previousRow (zeroRow nextRow) with
  | some filled => some (copy previousRow filled, filled)
  | none => none

/-- The outer loop `for n := 1; n < sequenceLength; n++` (lines 87-106), entered
with the counter at `n`. It returns the counter and the two rows at loop exit.
The counter never wraps: it is incremented only while below `sequenceLength`. -/
def outerLoop (add : Int → Int → Option Int) (sequenceLength : Int) (n : Int)
    (previousRow nextRow : Row) : Option (Int × Row × Row) :=
  if n < sequenceLength then
    match loopBody add previousRow nextRow with
    | some (p, q) => outerLoop add sequenceLength (n + 1) p q
    | none => none
  else some (n, previousRow, nextRow)
termination_by (sequenceLength - n).toNat
decreasing_by omega

/-- The loop `sum := 0; for _, v := range previousRow { sum += v }`
(lines 109-112). -/
def sumRow (add : Int → Int → Option Int) (previousRow : Row) : Option Int :=
  previousRow.foldlM add 0

/-- The function `validPhoneNumbers` (lines 61-116) over a given addition of
`int`; `none` when a slice access is out of range. -/
def validPhoneNumbersWith (add : Int → Int → Option Int) (sequenceLength : Int) : Option Int :=
  if sequenceLength < 1 then some 0
  else
    match outerLoop add sequenceLength 1 baseRow zeroedRow with
    | some (_, previousRow, _) => sumRow add previousRow
    | none => none

/-- The function `validPhoneNumbers` with `int` as exact integers. -/
def validPhoneNumbers (sequenceLength : Int) : Option Int :=
  validPhoneNumbersWith exactAdd sequenceLength

/-- The function `validPhoneNumbers` with `int` as 64-bit integers whose
addition wraps. -/
def validPhoneNumbers64 (sequenceLength : Int) : Option Int :=
  validPhoneNumbersWith wrapAdd64 sequenceLength

/-- The function `validPhoneNumbers` with `int` as 64-bit integers, stopped at
the first addition that overflows. -/
def validPhoneNumbersChecked64 (sequenceLength : Int) : Option Int :=
  validPhoneNumbersWith checkedAdd64 sequenceLength

/-- The text that `fmt.Printf(formatString, i, r)` writes (lines 119-121):
`%d` prints an `int` in decimal. -/
def printfLine (i r : Int) : String :=
  "number of valid phone numbers of length: " ++ toString i ++ " is " ++ toString r ++ "\n"

/-- The loop of `main` (lines 120-122) from the counter value `i`, with `fuel`
bounding the number of iterations: the list of the texts written to standard
output, one per call of `fmt.Printf`, in the order written. -/
def mainLoop (add : Int → Int → Option Int) : Nat → Int → Option (List String)
  | 0, _ => none
  | fuel + 1, i =>
    if i ≤ 10 then
      match validPhoneNumbersWith add i with
      | some r => (mainLoop add fuel (i + 1)).map (fun out => printfLine i r :: out)
      | none => none
    else some []

/-- The function `main` (lines 118-123): the texts it writes to standard
output. The loop runs from `i = 1` while `i <= 10`, so 11 evaluations of the
loop condition are enough. -/
def mainWith (add : Int → Int → Option Int) : Option (List String) :=
  mainLoop add 11 1

/-- The program on a platform whose `int` has 64 bits. -/
def main : Option (List String) := mainWith wrapAdd64

/-! ## The loop, unrolled

The outer loop is defined by recursion on the distance of the counter from
`sequenceLength`; the same loop as a given number of executions of its body is
what the proofs and the evaluations at concrete lengths work with. -/

/-- The body of the outer loop executed `k` times in a row. -/
def iterBody (add : Int → Int → Option Int) : Nat → Row → Row → Option (Row × Row)
  | 0, p, q => some (p, q)
  | k + 1, p, q =>
    match loopBody add p q with
    | some (p', q') => iterBody add k p' q'
    | none => none

/-- The result of `validPhoneNumbers` when the body of its outer loop is
executed exactly `k` times. -/
def runWith (add : Int → Int → Option Int) (k : Nat) : Option Int :=
  match iterBody add k baseRow zeroedRow with
  | some (p, _) => sumRow add p
  | none => none

/-- The function `validPhoneNumbers` with its outer loop unrolled. -/
def countWith (add : Int → Int → Option Int) (sequenceLength : Int) : Option Int :=
  if sequenceLength < 1 then some 0 else runWith add (sequenceLength - 1).toNat

/-! ## The recurrence of the specification -/

/-- One step of the recurrence: the entry at `i` is the sum of the entries of
the previous row at the members of `possibleMoves i`. -/
def specStep (f : Nat → Int) (i : Nat) : Int := ((possibleMoves i).map f).sum

/-- The row of the recurrence for length 1: `1` at the digits 2 to 9, else `0`. -/
def baseFn (i : Nat) : Int := if 2 ≤ i ∧ i ≤ 9 then 1 else 0

/-- The recurrence `Row_L` of the specification, for `L ≥ 1`:
`Row_1[i] = 1` if `i` is in `2..9`, else `0`, and `Row_L[i]` is the sum of
`Row_(L-1)[v]` over the `v` in `possibleMoves[i]`. -/
def specRow : Nat → Nat → Int
  | 0, _ => 0
  | 1, i => if 2 ≤ i ∧ i ≤ 9 then 1 else 0
  | L + 2, i => ((possibleMoves i).map (specRow (L + 1))).sum

/-- The slice of the ten values of `f` at the indices `0..9`. -/
def rowOf (f : Nat → Int) : Row := (List.range 10).map f

/-! ## The keypad and the sequences counted -/

/-- The keypad row of a digit in the layout `1 2 3 / 4 5 6 / 7 8 9 / _ 0 _`. -/
def keyRow (d : Nat) : Nat := if d = 0 then 3 else (d - 1) / 3

/-- The keypad column of a digit in the layout `1 2 3 / 4 5 6 / 7 8 9 / _ 0 _`. -/
def keyCol (d : Nat) : Nat := if d = 0 then 1 else (d - 1) % 3

/-- The distance between two rows or two columns. -/
def gridDistance (x y : Nat) : Nat := if x ≤ y then y - x else x - y

/-- A knight move on the keypad: the row distance and the column distance are
1 and 2 in some order. -/
def isKnightMove (a b : Nat) : Bool :=
  decide ((gridDistance (keyRow a) (keyRow b) = 1 ∧ gridDistance (keyCol a) (keyCol b) = 2) ∨
    (gridDistance (keyRow a) (keyRow b) = 2 ∧ gridDistance (keyCol a) (keyCol b) = 1))

/-- The digit `b` is a member of `possibleMoves[a]`. -/
def TableMove (a b : Nat) : Prop := b ∈ possibleMoves a

/-- A list `d_1..d_L` of digits in `0..9` whose first digit `d_1` is in `2..9`
and in which every `d_(k+1)` is a member of `possibleMoves[d_k]`. -/
def IsValidSequence (ds : List Nat) : Prop :=
  (∀ d ∈ ds, d ≤ 9) ∧ (∃ d, ds.head? = some d ∧ 2 ≤ d ∧ d ≤ 9) ∧ List.Chain' TableMove ds

/-- All lists of `k + 1` digits that start with `i` and in which every digit is
followed by a member of its `possibleMoves`. -/
def chainsFrom : Nat → Nat → List (List Nat)
  | 0, i => [[i]]
  | k + 1, i => (possibleMoves i).flatMap (fun v => (chainsFrom k v).map (fun ds => i :: ds))

/-- The digits a sequence may start with. -/
def startDigits : List Nat := [2, 3, 4, 5, 6, 7, 8, 9]

/-- All valid sequences of `k + 1` digits. -/
def validSequences (k : Nat) : List (List Nat) := startDigits.flatMap (chainsFrom k)

/-- All lists of `L` digits in `0..9`. -/
def allDigitLists : Nat → List (List Nat)
  | 0 => [[]]
  | L + 1 => (List.range 10).flatMap (fun d => (allDigitLists L).map (fun ds => d :: ds))

/-- Every two consecutive digits of the list are a knight move on the keypad. -/
def knightPairs : List Nat → Bool
  | a :: b :: t => isKnightMove a b && knightPairs (b :: t)
  | _ => true

/-- A phone number of the problem description: it does not start with 0 or 1
and is a sequence of knight moves. -/
def isKnightNumber : List Nat → Bool
  | [] => false
  | d :: t => d != 0 && d != 1 && knightPairs (d :: t)

/-- The number of phone numbers of `L` digits found by trying every list of
`L` digits. -/
def bruteForceCount (L : Nat) : Nat := ((allDigitLists L).filter isKnightNumber).length

/-- The recurrence the source comment describes (lines 37-55), for `L ≥ 1`:
`U_1[c] = 1` for every digit `c`, and `U_L[c]` is the sum of `U_(L-1)[v]` over
the `v` in `possibleMoves[c]`. -/
def specU : Nat → Nat → Int
  | 0, _ => 0
  | 1, _ => 1
  | L + 2, c => ((possibleMoves c).map (specU (L + 1))).sum

/-! ## The outer loop with a count of the executions of its body -/

/-- The outer loop of `validPhoneNumbers` as `outerLoop`, with one more
component in the state: the number of times the body has been executed, which
starts at `steps` and grows by one with every execution of the body. -/
def outerLoopSteps (add : Int → Int → Option Int) (sequenceLength : Int) (n : Int)
    (previousRow nextRow : Row) (steps : Nat) : Option (Nat × Int × Row × Row) :=
  if n < sequenceLength then
    match loopBody add previousRow nextRow with
    | some (p, q) => outerLoopSteps add sequenceLength (n + 1) p q (steps + 1)
    | none => none
  else some (steps, n, previousRow, nextRow)
termination_by (sequenceLength - n).toNat
decreasing_by omega

/-! ## The map as the runtime holds it

A Go map has no fixed order of its entries. The program with the map held as
a list of its entries in some order, and indexed by key as in line 97. -/

/-- The entries of the map literal `possibleMoves` (lines 73-84), as written. -/
def possibleMovesEntries : List (Nat × List Nat) :=
  [(0, [4, 6]), (1, [6, 8]), (2, [7, 9]), (3, [4, 8]), (4, [0, 3, 9]), (5, []),
   (6, [0, 1, 7]), (7, [2, 6]), (8, [1, 3]), (9, [2, 4])]

/-- The index expression `m[key]` on a map held as a list of entries: the value
of an entry with that key, and the nil slice when there is none. -/
def mapIndex (entries : List (Nat × List Nat)) (key : Nat) : List Nat :=
  match entries.find? (fun e => e.1 == key) with
  | some e => e.2
  | none => []

/-- The loop of lines 97-99 over the map `moves`. -/
def accumulateMovesOver (moves : Nat → List Nat) (add : Int → Int → Option Int)
    (previousRow : Row) (nextRow : Row) (i : Nat) : Option Row :=
  (moves i).foldlM (accumulateMove add previousRow i) nextRow

/-- The loop of lines 95-101 over the map `moves`. -/
def accumulateRowOver (moves : Nat → List Nat) (add : Int → Int → Option Int)
    (previousRow nextRow : Row) : Option Row :=
  (List.range 10).foldlM (accumulateMovesOver moves add previousRow) nextRow

/-- The body of the outer loop (lines 89-104) over the map `moves`. -/
def loopBodyOver (moves : Nat → List Nat) (add : Int → Int → Option Int)
    (previousRow nextRow : Row) : Option (Row × Row) :=
  match accumulateRowOver moves add previousRow (zeroRow nextRow) with
  | some filled => some (copy previousRow filled, filled)
  | none => none

/-- The outer loop (lines 87-106) over the map `moves`. -/
def outerLoopOver (moves : Nat → List Nat) (add : Int → Int → Option Int)
    (sequenceLength : Int) (n : Int) (previousRow nextRow : Row) : Option (Int × Row × Row) :=
  if n < sequenceLength then
    match loopBodyOver moves add previousRow nextRow with
    | some (p, q) => outerLoopOver moves add sequenceLength (n + 1) p q
    | none => none
  else some (n, previousRow, nextRow)
termination_by (sequenceLength - n).toNat
decreasing_by omega

/-- The function `validPhoneNumbers` (lines 61-116) over the map `moves`. -/
def validPhoneNumbersOver (moves : Nat → List Nat) (add : Int → Int → Option Int)
    (sequenceLength : Int) : Option Int :=
  if sequenceLength < 1 then some 0
  else
    match outerLoopOver moves add sequenceLength 1 baseRow zeroedRow with
    | some (_, previousRow, _) => sumRow add previousRow
    | none => none

/-! ## The program on a memory that outlives the calls

The slices of the program live in the memory of the process, and what a call
leaves there is still there when the next call starts. The function
`validPhoneNumbers` once more, statement by statement, on that memory, with the
map held by the runtime as a list of its entries in some order. -/

/-- The memory of the process: the slices allocated so far, each at the address
that is its position. Nothing is freed, so a call starts on the memory the
calls before it left. -/
abbrev Memory := List Row

/-- A slice literal `[]int{...}` (lines 70-71): a new slice at a new address. -/
def allocSlice (m : Memory) (r : Row) : Memory × Nat := (m ++ [r], m.length)

/-- The expression `s[i]` for the slice `s` at the address `addr`. -/
def readAt (m : Memory) (addr i : Nat) : Option Int :=
  match m[addr]? with
  | some r => r[i]?
  | none => none

/-- The statement `s[i] = v` for the slice `s` at the address `addr`. -/
def writeAt (m : Memory) (addr i : Nat) (v : Int) : Option Memory :=
  match m[addr]? with
  | some r => if i < r.length then some (m.set addr (r.set i v)) else none
  | none => none

/-- The loop `for i, _ := range nextRow { nextRow[i] = 0 }` (lines 90-92) on the
slice at the address `nextRow`. -/
def zeroRowIn (nextRow : Nat) (m : Memory) : Option Memory :=
  match m[nextRow]? with
  | some r => (List.range r.length).foldlM (fun mem i => writeAt mem nextRow i 0) m
  | none => none

/-- The statement `nextRow[i] += previousRow[v]` (line 98) on the memory. -/
def accumulateMoveIn (add : Int → Int → Option Int) (previousRow nextRow i : Nat)
    (m : Memory) (v : Nat) : Option Memory :=
  match readAt m nextRow i, readAt m previousRow v with
  | some a, some b =>
    match add a b with
    | some s => writeAt m nextRow i s
    | none => none
  | _, _ => none

/-- The loop `for _, v := range possibleMoves[i]` (lines 97-99) on the memory,
the map being held as `entries`. -/
def accumulateMovesIn (entries : List (Nat × List Nat)) (add : Int → Int → Option Int)
    (previousRow nextRow : Nat) (m : Memory) (i : Nat) : Option Memory :=
  (mapIndex entries i).foldlM (accumulateMoveIn add previousRow nextRow i) m

/-- The loop `for i := 0; i < 10; i++` (lines 95-101) on the memory. -/
def accumulateRowIn (entries : List (Nat × List Nat)) (add : Int → Int → Option Int)
    (previousRow nextRow : Nat) (m : Memory) : Option Memory :=
  (List.range 10).foldlM (accumulateMovesIn entries add previousRow nextRow) m

/-- The statement `copy(dst, src)` (line 104) on the memory. -/
def copyIn (dst src : Nat) (m : Memory) : Option Memory :=
  match m[dst]?, m[src]? with
  | some d, some s => some (m.set dst (copy d s))
  | _, _ => none

/-- One execution of the body of the outer loop (lines 89-104) on the memory. -/
def loopBodyIn (entries : List (Nat × List Nat)) (add : Int → Int → Option Int)
    (previousRow nextRow : Nat) (m : Memory) : Option Memory :=
  match zeroRowIn nextRow m with
  | some m1 =>
    match accumulateRowIn entries add previousRow nextRow m1 with
    | some m2 => copyIn previousRow nextRow m2
    | none => none
  | none => none

/-- The outer loop (lines 87-106) on the memory, entered with the counter at
`n`. -/
def outerLoopIn (entries : List (Nat × List Nat)) (add : Int → Int → Option Int)
    (sequenceLength : Int) (n : Int) (previousRow nextRow : Nat) (m : Memory) :
    Option (Int × Memory) :=
  if n < sequenceLength then
    match loopBodyIn entries add previousRow nextRow m with
    | some m1 => outerLoopIn entries add sequenceLength (n + 1) previousRow nextRow m1
    | none => none
  else some (n, m)
termination_by (sequenceLength - n).toNat
decreasing_by omega

/-- The loop of lines 109-112 on the slice at the address `previousRow`. -/
def sumRowIn (add : Int → Int → Option Int) (previousRow : Nat) (m : Memory) : Option Int :=
  match m[previousRow]? with
  | some r => r.foldlM add 0
  | none => none

/-- One call of `validPhoneNumbers` (lines 61-116) that starts on the memory
`m`, while the runtime holds the map as `entries`: the value returned and the
memory the call leaves. -/
def validPhoneNumbersIn (entries : List (Nat × List Nat)) (add : Int → Int → Option Int)
    (m : Memory) (sequenceLength : Int) : Option (Int × Memory) :=
  if sequenceLength < 1 then some (0, m)
  else
    match outerLoopIn entries add sequenceLength 1 (allocSlice m baseRow).2
        (allocSlice (allocSlice m baseRow).1 zeroedRow).2
        (allocSlice (allocSlice m baseRow).1 zeroedRow).1 with
    | some (_, m1) => (sumRowIn add (allocSlice m baseRow).2 m1).map (fun s => (s, m1))
    | none => none

/-- A sequence of calls of `validPhoneNumbers`, each with the order in which
the runtime holds the map during the call and with its argument: every call
starts on the memory the call before it left. The values returned, in the
order of the calls, and the memory after the last call. -/
def runCallsIn (add : Int → Int → Option Int) :
    Memory → List (List (Nat × List Nat) × Int) → Option (List Int × Memory)
  | m, [] => some ([], m)
  | m, c :: rest =>
    match validPhoneNumbersIn c.1 add m c.2 with
    | some (r, m1) =>
      match runCallsIn add m1 rest with
      | some (rs, m2) => some (r :: rs, m2)
      | none => none
    | none => none

/-! ## The loop and its unrolling -/

theorem outerLoop_eq_iterBody (add : Int → Int → Option Int) (L : Int) :
    ∀ (k : Nat) (n : Int) (p q : Row), (L - n).toNat = k →
      outerLoop add L n p q = (iterBody add k p q).map (fun s => (max n L, s.1, s.2)) := by
  intro k
  induction k with
  | zero =>
    intro n p q h
    have hn : ¬ n < L := by omega
    rw [outerLoop, if_neg hn]
    simp [iterBody]
    omega
  | succ k ih =>
    intro n p q h
    have hn : n < L := by omega
    rw [outerLoop, if_pos hn]
    cases hb : loopBody add p q with
    | none => simp [iterBody, hb]
    | some s =>
      obtain ⟨p', q'⟩ := s
      simp only [iterBody, hb]
      rw [ih (n + 1) p' q' (by omega)]
      have : max (n + 1) L = max n L := by omega
      rw [this]

theorem length_eq_ten {r : Row} (h : r.length = 10) :
    ∃ a0 a1 a2 a3 a4 a5 a6 a7 a8 a9 : Int, r = [a0, a1, a2, a3, a4, a5, a6, a7, a8, a9] := by
  match r, h with
  | [a0, a1, a2, a3, a4, a5, a6, a7, a8, a9], _ => exact ⟨a0, a1, a2, a3, a4, a5, a6, a7, a8, a9, rfl⟩

theorem loopBody_exact (p q : Row) (hp : p.length = 10) (hq : q.length = 10) :
    loopBody exactAdd p q = some (rowOf (specStep (fun v => p.getD v 0)), rowOf (specStep (fun v => p.getD v 0))) := by
  obtain ⟨a0, a1, a2, a3, a4, a5, a6, a7, a8, a9, rfl⟩ := length_eq_ten hp
  obtain ⟨b0, b1, b2, b3, b4, b5, b6, b7, b8, b9, rfl⟩ := length_eq_ten hq
  simp [loopBody, accumulateRow, accumulateMoves, accumulateMove, zeroRow, copy, exactAdd,
    possibleMoves, rowOf, specStep, List.range, List.range.loop, add_assoc]

theorem validPhoneNumbersWith_eq_runWith (add : Int → Int → Option Int) (L : Int) (h : 1 ≤ L) :
    validPhoneNumbersWith add L = runWith add (L - 1).toNat := by
  have hL : ¬ L < 1 := by omega
  rw [validPhoneNumbersWith, if_neg hL, outerLoop_eq_iterBody add L (L - 1).toNat 1 _ _ rfl, runWith]
  cases iterBody add (L - 1).toNat baseRow zeroedRow <;> rfl

theorem baseRow_eq : baseRow = rowOf baseFn := by decide

theorem length_rowOf (f : Nat → Int) : (rowOf f).length = 10 := by simp [rowOf]

theorem loopBody_rowOf (f : Nat → Int) (q : Row) (hq : q.length = 10) :
    loopBody exactAdd (rowOf f) q = some (rowOf (specStep f), rowOf (specStep f)) := by
  rw [loopBody_exact _ _ (length_rowOf f) hq]
  simp [rowOf, specStep, possibleMoves, List.range, List.range.loop]

theorem iterBody_rowOf (f : Nat → Int) :
    ∀ (k : Nat) (q : Row), q.length = 10 →
      ∃ q', q'.length = 10 ∧ iterBody exactAdd k (rowOf f) q = some (rowOf (specStep^[k] f), q') := by
  intro k
  induction k generalizing f with
  | zero => intro q hq; exact ⟨q, hq, rfl⟩
  | succ k ih =>
    intro q hq
    obtain ⟨q', hq', h⟩ := ih (specStep f) (rowOf (specStep f)) (length_rowOf _)
    refine ⟨q', hq', ?_⟩
    simp only [iterBody, loopBody_rowOf f q hq, h, Function.iterate_succ, Function.comp]

theorem sumRow_rowOf (f : Nat → Int) :
    sumRow exactAdd (rowOf f) = some (∑ i in Finset.range 10, f i) := by
  simp [sumRow, rowOf, exactAdd, List.range, List.range.loop, Finset.sum_range_succ]

theorem runWith_exact (k : Nat) :
    runWith exactAdd k = some (∑ i in Finset.range 10, (specStep^[k] baseFn) i) := by
  obtain ⟨q', _, h⟩ := iterBody_rowOf baseFn k zeroedRow rfl
  rw [runWith, baseRow_eq, h]
  exact sumRow_rowOf _

theorem specStep_adjoint (f g : Nat → Int) :
    ∑ i in Finset.range 10, specStep f i * g i = ∑ i in Finset.range 10, f i * specStep g i := by
  simp [specStep, possibleMoves, Finset.sum_range_succ]
  ring

theorem specStep_iterate_adjoint (k : Nat) : ∀ f g : Nat → Int,
    ∑ i in Finset.range 10, (specStep^[k] f) i * g i
      = ∑ i in Finset.range 10, f i * (specStep^[k] g) i := by
  induction k with
  | zero => intro f g; rfl
  | succ k ih =>
    intro f g
    rw [Function.iterate_succ_apply, ih, specStep_adjoint, Function.iterate_succ_apply']

/-! ## Counting the sequences -/

theorem mem_chainsFrom : ∀ (k i : Nat) (ds : List Nat),
    ds ∈ chainsFrom k i ↔ ds.length = k + 1 ∧ ds.head? = some i ∧ List.Chain' TableMove ds := by
  intro k
  induction k with
  | zero =>
    intro i ds
    match ds with
    | [] => simp [chainsFrom]
    | [a] => simp [chainsFrom]
    | a :: b :: t => simp [chainsFrom]
  | succ k ih =>
    intro i ds
    match ds with
    | [] => simp [chainsFrom]
    | [a] => simp [chainsFrom, ih]
    | a :: b :: t =>
      simp only [chainsFrom, List.mem_flatMap, List.mem_map, List.cons.injEq, List.length_cons,
        List.head?_cons, Option.some.injEq, List.chain'_cons, ih]
      constructor
      · rintro ⟨v, hv, t', ⟨hl, hh, hc⟩, rfl, rfl⟩
        simp only [List.head?_cons, Option.some.injEq] at hh
        subst hh
        exact ⟨by simpa using hl, rfl, hv, hc⟩
      · rintro ⟨hl, rfl, hv, hc⟩
        exact ⟨b, hv, b :: t, ⟨by simpa using hl, rfl, hc⟩, rfl, rfl⟩

theorem nodup_possibleMoves (i : Nat) : (possibleMoves i).Nodup := by
  unfold possibleMoves
  split <;> decide

theorem nodup_chainsFrom : ∀ (k i : Nat), (chainsFrom k i).Nodup := by
  intro k
  induction k with
  | zero => intro i; simp [chainsFrom]
  | succ k ih =>
    intro i
    rw [chainsFrom, List.nodup_flatMap]
    refine ⟨fun v _ => (ih v).map (fun a b h => (List.cons.inj h).2), ?_⟩
    refine (nodup_possibleMoves i).imp ?_
    intro v w hvw
    rw [Function.onFun, List.disjoint_left]
    intro ds h1 h2
    obtain ⟨t1, ht1, rfl⟩ := List.mem_map.1 h1
    obtain ⟨t2, ht2, h⟩ := List.mem_map.1 h2
    have ht : t2 = t1 := (List.cons.inj h).2
    subst ht
    have e1 := ((mem_chainsFrom k v t2).1 ht1).2.1
    have e2 := ((mem_chainsFrom k w t2).1 ht2).2.1
    rw [e1] at e2
    exact hvw (Option.some.inj e2)

theorem length_chainsFrom : ∀ (k i : Nat),
    ((chainsFrom k i).length : Int) = (specStep^[k] (fun _ => 1)) i := by
  intro k
  induction k with
  | zero => intro i; simp [chainsFrom]
  | succ k ih =>
    intro i
    rw [Function.iterate_succ_apply', chainsFrom, List.length_flatMap, specStep]
    have : ∀ l : List Nat, ((List.map (List.length ∘ fun v => List.map (fun ds => i :: ds) (chainsFrom k v)) l).sum : Int)
        = (List.map (specStep^[k] fun _ => 1) l).sum := by
      intro l
      induction l with
      | nil => simp
      | cons a l ihl => simp [ih, ihl]
    exact_mod_cast this _

theorem tableMove_le {a b : Nat} (h : TableMove a b) : b ≤ 9 := by
  unfold TableMove possibleMoves at h
  split at h <;> simp at h <;> omega

theorem chain_digits_le : ∀ (ds : List Nat) (a : Nat), List.Chain' TableMove (a :: ds) → a ≤ 9 →
    ∀ d ∈ a :: ds, d ≤ 9 := by
  intro ds
  induction ds with
  | nil => intro a _ ha d hd; simp at hd; omega
  | cons b t ih =>
    intro a hc ha d hd
    rw [List.chain'_cons] at hc
    rcases List.mem_cons.1 hd with rfl | hd'
    · exact ha
    · exact ih b hc.2 (tableMove_le hc.1) d hd'

theorem mem_validSequences (k : Nat) (ds : List Nat) :
    ds ∈ validSequences k ↔ ds.length = k + 1 ∧ IsValidSequence ds := by
  simp only [validSequences, List.mem_flatMap, mem_chainsFrom, IsValidSequence]
  constructor
  · rintro ⟨i, hi, hl, hh, hc⟩
    have hi' : 2 ≤ i ∧ i ≤ 9 := by
      simp [startDigits] at hi
      omega
    refine ⟨hl, ?_, ⟨i, hh, hi'⟩, hc⟩
    match ds, hh, hc with
    | a :: t, hh, hc =>
      simp only [List.head?_cons, Option.some.injEq] at hh
      subst hh
      exact chain_digits_le t a hc hi'.2
  · rintro ⟨hl, _, ⟨d, hh, h2, h9⟩, hc⟩
    refine ⟨d, ?_, hl, hh, hc⟩
    simp only [startDigits, List.mem_cons, List.mem_singleton]
    omega

theorem nodup_validSequences (k : Nat) : (validSequences k).Nodup := by
  rw [validSequences, List.nodup_flatMap]
  refine ⟨fun i _ => nodup_chainsFrom k i, ?_⟩
  have hs : startDigits.Nodup := by decide
  refine hs.imp ?_
  intro v w hvw
  rw [Function.onFun, List.disjoint_left]
  intro ds h1 h2
  have e1 := ((mem_chainsFrom k v ds).1 h1).2.1
  have e2 := ((mem_chainsFrom k w ds).1 h2).2.1
  rw [e1] at e2
  exact hvw (Option.some.inj e2)

theorem length_validSequences (k : Nat) :
    ((validSequences k).length : Int)
      = ∑ i in Finset.range 10, baseFn i * (specStep^[k] (fun _ => 1)) i := by
  simp [validSequences, startDigits, List.length_flatMap, length_chainsFrom,
    Finset.sum_range_succ, baseFn]
  ring

theorem runWith_exact_eq_length (k : Nat) :
    runWith exactAdd k = some ((validSequences k).length : Int) := by
  rw [runWith_exact, length_validSequences, ← specStep_iterate_adjoint]
  simp

theorem ncard_validSequences (k : Nat) :
    Set.ncard {ds : List Nat | ds.length = k + 1 ∧ IsValidSequence ds} = (validSequences k).length := by
  have : {ds : List Nat | ds.length = k + 1 ∧ IsValidSequence ds} = ↑(validSequences k).toFinset := by
    ext ds
    simp [mem_validSequences]
  rw [this, Set.ncard_coe_Finset, List.toFinset_card_of_nodup (nodup_validSequences k)]

theorem validPhoneNumbersWith_eq_countWith (add : Int → Int → Option Int) (L : Int) :
    validPhoneNumbersWith add L = countWith add L := by
  by_cases h : L < 1
  · simp [validPhoneNumbersWith, countWith, h]
  · rw [validPhoneNumbersWith_eq_runWith add L (by omega), countWith, if_neg h]

theorem specRow_succ (k : Nat) : specRow (k + 1) = specStep^[k] baseFn := by
  induction k with
  | zero => funext i; simp [specRow, baseFn]
  | succ k ih =>
    funext i
    rw [Function.iterate_succ_apply', ← ih]
    simp [specRow, specStep]

theorem validPhoneNumbers_eq_length (L : Int) (hL : 1 ≤ L) :
    validPhoneNumbers L = some ((validSequences (L - 1).toNat).length : Int) := by
  rw [validPhoneNumbers, validPhoneNumbersWith_eq_runWith _ L hL, runWith_exact_eq_length]

theorem mem_allDigitLists : ∀ (L : Nat) (ds : List Nat),
    ds ∈ allDigitLists L ↔ ds.length = L ∧ ∀ d ∈ ds, d < 10 := by
  intro L
  induction L with
  | zero =>
    intro ds
    cases ds <;> simp [allDigitLists]
  | succ L ih =>
    intro ds
    cases ds with
    | nil => simp [allDigitLists]
    | cons a t =>
      simp only [allDigitLists, List.mem_flatMap, List.mem_range, List.mem_map, List.cons.injEq,
        ih, List.length_cons, List.mem_cons, forall_eq_or_imp, Nat.add_right_cancel_iff]
      constructor
      · rintro ⟨d, hd, t', ⟨hl, ht⟩, rfl, rfl⟩
        exact ⟨hl, hd, ht⟩
      · rintro ⟨hl, ha, ht⟩
        exact ⟨a, ha, t, ⟨hl, ht⟩, rfl, rfl⟩

theorem nodup_allDigitLists : ∀ L : Nat, (allDigitLists L).Nodup := by
  intro L
  induction L with
  | zero => simp [allDigitLists]
  | succ L ih =>
    rw [allDigitLists, List.nodup_flatMap]
    refine ⟨fun d _ => ih.map (fun a b h => (List.cons.inj h).2), ?_⟩
    refine (List.nodup_range 10).imp ?_
    intro v w hvw
    rw [Function.onFun, List.disjoint_left]
    intro ds h1 h2
    obtain ⟨t1, _, rfl⟩ := List.mem_map.1 h1
    obtain ⟨t2, _, h⟩ := List.mem_map.1 h2
    exact hvw (List.cons.inj h).1.symm

theorem isKnightMove_iff_table :
    ∀ a < 10, ∀ b < 10, (isKnightMove a b = true ↔ b ∈ possibleMoves a) := by decide

theorem knightPairs_iff : ∀ ds : List Nat, (∀ d ∈ ds, d < 10) →
    (knightPairs ds = true ↔ List.Chain' TableMove ds) := by
  intro ds
  induction ds with
  | nil => intro _; simp [knightPairs]
  | cons a t ih =>
    intro h
    cases t with
    | nil => simp [knightPairs]
    | cons b t' =>
      have ha : a < 10 := h a (by simp)
      have hb : b < 10 := h b (by simp)
      have ht : ∀ d ∈ b :: t', d < 10 := fun d hd => h d (List.mem_cons_of_mem a hd)
      simp only [knightPairs, Bool.and_eq_true, List.chain'_cons, ih ht,
        isKnightMove_iff_table a ha b hb, TableMove]

theorem isKnightNumber_iff (ds : List Nat) (h : ∀ d ∈ ds, d < 10) :
    isKnightNumber ds = true ↔
      (∃ d, ds.head? = some d ∧ 2 ≤ d ∧ d ≤ 9) ∧ List.Chain' TableMove ds := by
  cases ds with
  | nil => simp [isKnightNumber]
  | cons a t =>
    have ha : a < 10 := h a (by simp)
    simp only [isKnightNumber, Bool.and_eq_true, knightPairs_iff (a :: t) h, List.head?_cons,
      Option.some.injEq, exists_eq_left', bne_iff_ne, ne_eq]
    constructor
    · rintro ⟨⟨h0, h1⟩, hc⟩
      exact ⟨⟨by omega, by omega⟩, hc⟩
    · rintro ⟨⟨h2, _⟩, hc⟩
      exact ⟨⟨by omega, by omega⟩, hc⟩

theorem bruteForceCount_succ (k : Nat) : bruteForceCount (k + 1) = (validSequences k).length := by
  have hperm : ((allDigitLists (k + 1)).filter isKnightNumber).Perm (validSequences k) := by
    rw [List.perm_ext_iff_of_nodup ((nodup_allDigitLists (k + 1)).filter _) (nodup_validSequences k)]
    intro ds
    rw [List.mem_filter, mem_allDigitLists, mem_validSequences, IsValidSequence]
    constructor
    · rintro ⟨⟨hl, hd⟩, hk⟩
      have := (isKnightNumber_iff ds hd).1 hk
      exact ⟨hl, fun d hmem => Nat.le_of_lt_succ (hd d hmem), this.1, this.2⟩
    · rintro ⟨hl, hd, hh, hc⟩
      have hd' : ∀ d ∈ ds, d < 10 := fun d hmem => Nat.lt_succ_of_le (hd d hmem)
      exact ⟨⟨hl, hd'⟩, (isKnightNumber_iff ds hd').2 ⟨hh, hc⟩⟩
  exact hperm.length_eq

/-! ## Runs at concrete lengths -/

theorem small_runs_agree : ∀ k < 10,
    runWith checkedAdd64 k = runWith exactAdd k ∧ runWith wrapAdd64 k = runWith exactAdd k := by
  decide!

theorem small_rows_in_range : ∀ k < 10,
    (iterBody exactAdd k baseRow zeroedRow).map
      (fun s => decide (∀ x ∈ s.1, 0 ≤ x ∧ x < 2 ^ 63)) = some true := by
  decide!

theorem runWith_wrap_nonneg : ∀ k < 51, 0 ≤ (runWith wrapAdd64 k).getD (-1) := by
  decide!

theorem runWith_wrap_fifty_one : runWith wrapAdd64 51 = some (-3712436032323452928) := by
  decide!

theorem small_results_in_range : ∀ k < 10,
    0 ≤ (runWith exactAdd k).getD (-1) ∧ (runWith exactAdd k).getD (2 ^ 63) < 2 ^ 63 := by
  decide!

theorem main_eq :
    main = some
      ["number of valid phone numbers of length: 1 is 8\n",
       "number of valid phone numbers of length: 2 is 16\n",
       "number of valid phone numbers of length: 3 is 35\n",
       "number of valid phone numbers of length: 4 is 82\n",
       "number of valid phone numbers of length: 5 is 182\n",
       "number of valid phone numbers of length: 6 is 428\n",
       "number of valid phone numbers of length: 7 is 952\n",
       "number of valid phone numbers of length: 8 is 2240\n",
       "number of valid phone numbers of length: 9 is 4984\n",
       "number of valid phone numbers of length: 10 is 11728\n"] := by
  simp only [main, mainWith, mainLoop, validPhoneNumbersWith_eq_countWith]
  decide!

theorem main_line_values : ∀ k < 10,
    ∃ r ∈ ([8, 16, 35, 82, 182, 428, 952, 2240, 4984, 11728] : List Int),
      runWith exactAdd k = some r ∧ runWith wrapAdd64 k = some r ∧
      ["number of valid phone numbers of length: 1 is 8\n",
       "number of valid phone numbers of length: 2 is 16\n",
       "number of valid phone numbers of length: 3 is 35\n",
       "number of valid phone numbers of length: 4 is 82\n",
       "number of valid phone numbers of length: 5 is 182\n",
       "number of valid phone numbers of length: 6 is 428\n",
       "number of valid phone numbers of length: 7 is 952\n",
       "number of valid phone numbers of length: 8 is 2240\n",
       "number of valid phone numbers of length: 9 is 4984\n",
       "number of valid phone numbers of length: 10 is 11728\n"][k]?
        = some ("number of valid phone numbers of length: " ++ toString (((k + 1 : Nat)) : Int)
            ++ " is " ++ toString r ++ "\n") := by
  decide!

/-! ## The table, the comment's recurrence and the growth of the row sums -/

theorem possibleMoves_symm_table :
    ∀ a < 10, ∀ b < 10, (b ∈ possibleMoves a ↔ a ∈ possibleMoves b) ∧ a ∉ possibleMoves a := by
  decide

theorem specU_succ (k : Nat) : specU (k + 1) = specStep^[k] (fun _ => 1) := by
  induction k with
  | zero => funext i; simp [specU]
  | succ k ih =>
    funext i
    rw [Function.iterate_succ_apply', ← ih]
    simp [specU, specStep]

theorem runWith_exact_eq_sum_specU (k : Nat) :
    runWith exactAdd k = some (∑ c in Finset.Icc 2 9, specU (k + 1) c) := by
  rw [runWith_exact, specU_succ]
  have h := specStep_iterate_adjoint k baseFn (fun _ => 1)
  simp only [mul_one] at h
  rw [h]
  have hI : Finset.Icc 2 9 = ({2, 3, 4, 5, 6, 7, 8, 9} : Finset Nat) := by decide
  rw [hI]
  simp [Finset.sum_range_succ, baseFn]
  ring

theorem specStep_nonneg (f : Nat → Int) (hf : ∀ i, 0 ≤ f i) (i : Nat) : 0 ≤ specStep f i := by
  unfold specStep
  apply List.sum_nonneg
  intro x hx
  obtain ⟨v, _, rfl⟩ := List.mem_map.1 hx
  exact hf v

theorem baseFn_nonneg (i : Nat) : 0 ≤ baseFn i := by
  unfold baseFn
  split <;> decide

theorem iterate_nonneg (k : Nat) (i : Nat) : 0 ≤ (specStep^[k] baseFn) i := by
  induction k generalizing i with
  | zero => exact baseFn_nonneg i
  | succ k ih =>
    rw [Function.iterate_succ_apply']
    exact specStep_nonneg _ ih i

theorem iterate_five (k : Nat) : (specStep^[k + 1] baseFn) 5 = 0 := by
  rw [Function.iterate_succ_apply']
  simp [specStep, possibleMoves]

theorem sum_specStep (g : Nat → Int) :
    ∑ i in Finset.range 10, specStep g i
      = 2 * (∑ i in Finset.range 10, g i) + g 4 + g 6 - 2 * g 5 := by
  simp [specStep, possibleMoves, Finset.sum_range_succ]
  ring

theorem sum_range_le (g : Nat → Int) (hg : ∀ i, 0 ≤ g i) :
    g 4 + g 6 ≤ ∑ i in Finset.range 10, g i := by
  simp only [Finset.sum_range_succ, Finset.sum_range_zero]
  have := hg 0; have := hg 1; have := hg 2; have := hg 3; have := hg 4
  have := hg 5; have := hg 6; have := hg 7; have := hg 8; have := hg 9
  omega

/-- The sum of the row after `k` executions of the loop body. -/
theorem rowSum_step (k : Nat) :
    2 * (∑ i in Finset.range 10, (specStep^[k] baseFn) i)
        ≤ ∑ i in Finset.range 10, (specStep^[k + 1] baseFn) i ∧
      ∑ i in Finset.range 10, (specStep^[k + 1] baseFn) i
        ≤ 3 * (∑ i in Finset.range 10, (specStep^[k] baseFn) i) := by
  have hs : ∑ i in Finset.range 10, (specStep^[k + 1] baseFn) i
      = ∑ i in Finset.range 10, specStep (specStep^[k] baseFn) i := by
    apply Finset.sum_congr rfl
    intro i _
    rw [Function.iterate_succ_apply']
  rw [hs, sum_specStep]
  have h4 := iterate_nonneg k 4
  have h6 := iterate_nonneg k 6
  have h5 := iterate_nonneg k 5
  have hle := sum_range_le _ (iterate_nonneg k)
  have h5' : 2 * (specStep^[k] baseFn) 5 ≤ (specStep^[k] baseFn) 4 + (specStep^[k] baseFn) 6 := by
    cases k with
    | zero => simp [baseFn]
    | succ k => rw [iterate_five k]; omega
  constructor <;> omega

theorem rowSum_pow (k : Nat) :
    (2 : Int) ^ (k + 3) ≤ ∑ i in Finset.range 10, (specStep^[k] baseFn) i := by
  induction k with
  | zero => decide
  | succ k ih =>
    have h := (rowSum_step k).1
    have e : (2 : Int) ^ (k + 1 + 3) = 2 * 2 ^ (k + 3) := by ring
    rw [e]
    omega

/-! ## The runs return -/

theorem iterBody_rowOf_succ : ∀ (k : Nat) (f : Nat → Int) (q : Row), q.length = 10 →
    iterBody exactAdd (k + 1) (rowOf f) q
      = some (rowOf (specStep^[k + 1] f), rowOf (specStep^[k + 1] f)) := by
  intro k
  induction k with
  | zero =>
    intro f q hq
    simp only [iterBody, loopBody_rowOf f q hq, Function.iterate_succ, Function.iterate_zero,
      Function.comp, id]
  | succ k ih =>
    intro f q hq
    rw [iterBody, loopBody_rowOf f q hq]
    simp only []
    rw [ih (specStep f) _ (length_rowOf _)]
    rfl

theorem outerLoopSteps_eq_iterBody (add : Int → Int → Option Int) (L : Int) :
    ∀ (k : Nat) (n : Int) (p q : Row) (s : Nat), (L - n).toNat = k →
      outerLoopSteps add L n p q s
        = (iterBody add k p q).map (fun r => (s + k, max n L, r.1, r.2)) := by
  intro k
  induction k with
  | zero =>
    intro n p q s h
    have hn : ¬ n < L := by omega
    rw [outerLoopSteps, if_neg hn]
    simp [iterBody]
    omega
  | succ k ih =>
    intro n p q s h
    have hn : n < L := by omega
    rw [outerLoopSteps, if_pos hn]
    cases hb : loopBody add p q with
    | none => simp [iterBody, hb]
    | some r =>
      obtain ⟨p', q'⟩ := r
      simp only [iterBody, hb]
      rw [ih (n + 1) p' q' (s + 1) (by omega)]
      have e1 : max (n + 1) L = max n L := by omega
      have e2 : s + 1 + k = s + (k + 1) := by omega
      rw [e1, e2]

theorem loopBody_total (f : Int → Int → Int) (p q : Row) (hp : p.length = 10)
    (hq : q.length = 10) :
    ∃ r, loopBody (fun a b => some (f a b)) p q = some (r, r) ∧ r.length = 10 := by
  obtain ⟨a0, a1, a2, a3, a4, a5, a6, a7, a8, a9, rfl⟩ := length_eq_ten hp
  obtain ⟨b0, b1, b2, b3, b4, b5, b6, b7, b8, b9, rfl⟩ := length_eq_ten hq
  simp [loopBody, accumulateRow, accumulateMoves, accumulateMove, zeroRow, copy,
    possibleMoves, List.range, List.range.loop]

theorem iterBody_total (f : Int → Int → Int) : ∀ (k : Nat) (p q : Row), p.length = 10 →
    q.length = 10 →
    ∃ p' q', iterBody (fun a b => some (f a b)) k p q = some (p', q') ∧
      p'.length = 10 ∧ q'.length = 10 := by
  intro k
  induction k with
  | zero => intro p q hp hq; exact ⟨p, q, rfl, hp, hq⟩
  | succ k ih =>
    intro p q hp hq
    obtain ⟨r, hr, hlen⟩ := loopBody_total f p q hp hq
    obtain ⟨p', q', h, h1, h2⟩ := ih r r hlen hlen
    exact ⟨p', q', by simp only [iterBody, hr, h], h1, h2⟩

theorem sumRow_total (f : Int → Int → Int) (p : Row) :
    ∃ r, sumRow (fun a b => some (f a b)) p = some r := by
  unfold sumRow
  generalize (0 : Int) = init
  induction p generalizing init with
  | nil => exact ⟨init, rfl⟩
  | cons a t ih =>
    obtain ⟨r, hr⟩ := ih (f init a)
    exact ⟨r, by simpa [List.foldlM] using hr⟩

theorem validPhoneNumbersWith_total (f : Int → Int → Int) (L : Int) :
    ∃ r, validPhoneNumbersWith (fun a b => some (f a b)) L = some r := by
  by_cases h : L < 1
  · exact ⟨0, by simp [validPhoneNumbersWith, h]⟩
  · rw [validPhoneNumbersWith_eq_runWith _ L (by omega), runWith]
    obtain ⟨p', q', hi, _, _⟩ := iterBody_total f (L - 1).toNat baseRow zeroedRow rfl rfl
    rw [hi]
    exact sumRow_total f p'

theorem outerLoopSteps_count (f : Int → Int → Int) (L : Int) (hL : 1 ≤ L) :
    ∃ p q, outerLoopSteps (fun a b => some (f a b)) L 1 baseRow zeroedRow 0
        = some ((L - 1).toNat, L, p, q) ∧
      outerLoop (fun a b => some (f a b)) L 1 baseRow zeroedRow = some (L, p, q) := by
  obtain ⟨p', q', hi, _, _⟩ := iterBody_total f (L - 1).toNat baseRow zeroedRow rfl rfl
  refine ⟨p', q', ?_, ?_⟩
  · rw [outerLoopSteps_eq_iterBody _ L (L - 1).toNat 1 _ _ 0 rfl, hi]
    simp
    omega
  · rw [outerLoop_eq_iterBody _ L (L - 1).toNat 1 _ _ rfl, hi]
    simp
    omega

theorem rowOf_getElem (g : Nat → Int) (i : Nat) (hi : i ≤ 9) : (rowOf g)[i]? = some (g i) := by
  have h : i < 10 := by omega
  simp [rowOf, List.getElem?_map, List.getElem?_range h]

/-! ## The map indexed by key -/

theorem possibleMovesEntries_values :
    ∀ e ∈ possibleMovesEntries, e.2 = possibleMoves e.1 := by decide

theorem possibleMoves_of_no_entry (key : Nat)
    (h : ∀ e ∈ possibleMovesEntries, ¬ (e.1 == key) = true) : possibleMoves key = [] := by
  by_cases hk : key < 10
  · exfalso
    interval_cases key <;> simp [possibleMovesEntries] at h
  · obtain ⟨n, rfl⟩ : ∃ n, key = n + 10 := ⟨key - 10, by omega⟩
    rfl

theorem mapIndex_perm (entries : List (Nat × List Nat))
    (h : entries.Perm possibleMovesEntries) (key : Nat) :
    mapIndex entries key = possibleMoves key := by
  unfold mapIndex
  cases hf : entries.find? (fun e => e.1 == key) with
  | none =>
    rw [List.find?_eq_none] at hf
    exact (possibleMoves_of_no_entry key (fun e he => hf e (h.mem_iff.2 he))).symm
  | some e =>
    have hkey : e.1 = key := by simpa using List.find?_some hf
    have hmem : e ∈ possibleMovesEntries := h.mem_iff.1 (List.mem_of_find?_eq_some hf)
    rw [← hkey]
    exact possibleMovesEntries_values e hmem

theorem outerLoopOver_possibleMoves (add : Int → Int → Option Int) (L : Int) :
    ∀ (k : Nat) (n : Int) (p q : Row), (L - n).toNat = k →
      outerLoopOver possibleMoves add L n p q = outerLoop add L n p q := by
  intro k
  induction k with
  | zero =>
    intro n p q h
    have hn : ¬ n < L := by omega
    rw [outerLoopOver, outerLoop, if_neg hn, if_neg hn]
  | succ k ih =>
    intro n p q h
    have hn : n < L := by omega
    have hb : loopBodyOver possibleMoves add p q = loopBody add p q := rfl
    rw [outerLoopOver, outerLoop, if_pos hn, if_pos hn, hb]
    cases loopBody add p q with
    | none => rfl
    | some s =>
      obtain ⟨p', q'⟩ := s
      exact ih (n + 1) p' q' (by omega)

theorem validPhoneNumbersOver_possibleMoves (add : Int → Int → Option Int) (L : Int) :
    validPhoneNumbersOver possibleMoves add L = validPhoneNumbersWith add L := by
  rw [validPhoneNumbersOver, validPhoneNumbersWith,
    outerLoopOver_possibleMoves add L (L - 1).toNat 1 baseRow zeroedRow rfl]

theorem validPhoneNumbersOver_perm (entries : List (Nat × List Nat))
    (h : entries.Perm possibleMovesEntries) (add : Int → Int → Option Int) (L : Int) :
    validPhoneNumbersOver (mapIndex entries) add L = validPhoneNumbersWith add L := by
  have e : mapIndex entries = possibleMoves := funext (mapIndex_perm entries h)
  rw [e, validPhoneNumbersOver_possibleMoves]

/-! ## Counting the sequences by their last and by their first digit -/

theorem ne_nil_of_mem_chainsFrom {k i : Nat} {ds : List Nat} (h : ds ∈ chainsFrom k i) :
    ds ≠ [] := by
  intro e
  have hl := ((mem_chainsFrom k i ds).1 h).1
  rw [e] at hl
  simp at hl

theorem length_filter_cons (i j : Nat) (xs : List (List Nat)) (hxs : ∀ ds ∈ xs, ds ≠ []) :
    ((xs.map (fun ds => j :: ds)).filter (fun ds => ds.getLast? == some i)).length
      = (xs.filter (fun ds => ds.getLast? == some i)).length := by
  rw [List.filter_map, List.length_map]
  congr 1
  apply List.filter_congr
  intro ds hds
  cases ds with
  | nil => exact absurd rfl (hxs [] hds)
  | cons a t => simp [List.getLast?_cons_cons]

theorem length_filter_chainsFrom (i : Nat) : ∀ (k j : Nat),
    (((chainsFrom k j).filter (fun ds => ds.getLast? == some i)).length : Int)
      = (specStep^[k] (fun d => if d = i then 1 else 0)) j := by
  intro k
  induction k with
  | zero =>
    intro j
    by_cases h : j = i <;> simp [chainsFrom, List.filter_cons, h]
  | succ k ih =>
    intro j
    rw [Function.iterate_succ_apply', chainsFrom, specStep]
    have : ∀ l : List Nat,
        (((l.flatMap (fun v => (chainsFrom k v).map (fun ds => j :: ds))).filter
            (fun ds => ds.getLast? == some i)).length : Int)
          = (l.map (specStep^[k] (fun d => if d = i then 1 else 0))).sum := by
      intro l
      induction l with
      | nil => simp
      | cons a l ihl =>
        rw [List.flatMap_cons, List.filter_append, List.length_append, Nat.cast_add, ihl,
          length_filter_cons i j _ (fun ds h => ne_nil_of_mem_chainsFrom h), ih a,
          List.map_cons, List.sum_cons]
    exact this _

theorem length_filter_validSequences (i k : Nat) (hi : i ≤ 9) :
    (((validSequences k).filter (fun ds => ds.getLast? == some i)).length : Int)
      = (specStep^[k] baseFn) i := by
  have h1 : (((validSequences k).filter (fun ds => ds.getLast? == some i)).length : Int)
      = ∑ j in Finset.range 10, baseFn j * (specStep^[k] (fun d => if d = i then 1 else 0)) j := by
    simp [validSequences, startDigits, List.filter_append, length_filter_chainsFrom,
      Finset.sum_range_succ, baseFn]
    ring
  have hmem : i ∈ Finset.range 10 := Finset.mem_range.2 (by omega)
  rw [h1, ← specStep_iterate_adjoint]
  simp [Finset.sum_ite_eq', hmem]

theorem ncard_validSequences_last (i k : Nat) :
    Set.ncard {ds : List Nat | ds.length = k + 1 ∧ IsValidSequence ds ∧ ds.getLast? = some i}
      = ((validSequences k).filter (fun ds => ds.getLast? == some i)).length := by
  have : {ds : List Nat | ds.length = k + 1 ∧ IsValidSequence ds ∧ ds.getLast? = some i}
      = ↑((validSequences k).filter (fun ds => ds.getLast? == some i)).toFinset := by
    ext ds
    simp [mem_validSequences, and_assoc]
  rw [this, Set.ncard_coe_Finset,
    List.toFinset_card_of_nodup ((nodup_validSequences k).filter _)]

theorem ncard_validSequences_first (i k : Nat) (h2 : 2 ≤ i) (h9 : i ≤ 9) :
    Set.ncard {ds : List Nat | ds.length = k + 1 ∧ IsValidSequence ds ∧ ds.head? = some i}
      = (chainsFrom k i).length := by
  have : {ds : List Nat | ds.length = k + 1 ∧ IsValidSequence ds ∧ ds.head? = some i}
      = ↑(chainsFrom k i).toFinset := by
    ext ds
    simp only [Set.mem_setOf_eq, List.coe_toFinset, mem_chainsFrom]
    constructor
    · rintro ⟨hl, hv, hh⟩
      exact ⟨hl, hh, hv.2.2⟩
    · rintro ⟨hl, hh, hc⟩
      have hmem : ds ∈ validSequences k := by
        rw [validSequences, List.mem_flatMap]
        refine ⟨i, ?_, (mem_chainsFrom k i ds).2 ⟨hl, hh, hc⟩⟩
        simp only [startDigits, List.mem_cons, List.mem_singleton]
        omega
      exact ⟨hl, ((mem_validSequences k ds).1 hmem).2, hh⟩
  rw [this, Set.ncard_coe_Finset, List.toFinset_card_of_nodup (nodup_chainsFrom k i)]

theorem ncard_validSequences_first_lt (i k : Nat) (h : i < 2) :
    Set.ncard {ds : List Nat | ds.length = k + 1 ∧ IsValidSequence ds ∧ ds.head? = some i}
      = 0 := by
  have : {ds : List Nat | ds.length = k + 1 ∧ IsValidSequence ds ∧ ds.head? = some i} = ∅ := by
    ext ds
    simp only [Set.mem_setOf_eq, Set.mem_empty_iff_false, iff_false]
    rintro ⟨_, ⟨_, ⟨d, hd, hd2, _⟩, _⟩, hh⟩
    rw [hh] at hd
    have := Option.some.inj hd
    omega
  rw [this, Set.ncard_empty]

theorem iterBody_one :
    iterBody exactAdd 1 baseRow zeroedRow
      = some ([2, 2, 2, 2, 2, 0, 1, 2, 1, 2], [2, 2, 2, 2, 2, 0, 1, 2, 1, 2]) := by
  decide!

theorem iterBody_two :
    iterBody exactAdd 2 baseRow zeroedRow
      = some ([3, 2, 4, 3, 6, 0, 6, 3, 4, 4], [3, 2, 4, 3, 6, 0, 6, 3, 4, 4]) := by
  decide!

/-! ## Runs whose additions do not overflow -/

theorem foldlM_mono {α β : Type} (f g : β → α → Option β)
    (h : ∀ s x r, f s x = some r → g s x = some r) :
    ∀ (xs : List α) (s r : β), xs.foldlM f s = some r → xs.foldlM g s = some r := by
  intro xs
  induction xs with
  | nil => intro s r hr; exact hr
  | cons x xs ih =>
    intro s r hr
    rw [List.foldlM_cons] at hr ⊢
    cases hf : f s x with
    | none => rw [hf] at hr; exact absurd hr (by simp)
    | some t =>
      rw [hf] at hr
      rw [h s x t hf]
      exact ih t r hr

theorem accumulateMove_mono (add1 add2 : Int → Int → Option Int)
    (h : ∀ a b c, add1 a b = some c → add2 a b = some c) (p : Row) (i : Nat) (q : Row) (v : Nat)
    (r : Row) (hr : accumulateMove add1 p i q v = some r) :
    accumulateMove add2 p i q v = some r := by
  unfold accumulateMove at hr ⊢
  cases hq : q[i]? with
  | none => simp [hq] at hr
  | some a =>
    cases hp : p[v]? with
    | none => simp [hq, hp] at hr
    | some b =>
      simp only [hq, hp] at hr ⊢
      cases ha : add1 a b with
      | none => simp [ha] at hr
      | some c =>
        rw [ha] at hr
        rw [h a b c ha]
        exact hr

theorem loopBody_mono (add1 add2 : Int → Int → Option Int)
    (h : ∀ a b c, add1 a b = some c → add2 a b = some c) (p q : Row) (s : Row × Row)
    (hs : loopBody add1 p q = some s) : loopBody add2 p q = some s := by
  unfold loopBody at hs ⊢
  cases hf : accumulateRow add1 p (zeroRow q) with
  | none => rw [hf] at hs; exact absurd hs (by simp)
  | some filled =>
    have h2 : accumulateRow add2 p (zeroRow q) = some filled :=
      foldlM_mono _ _ (fun s i r hr =>
        foldlM_mono _ _ (fun s' v r' hr' => accumulateMove_mono add1 add2 h p i s' v r' hr')
          _ s r hr) _ _ _ hf
    rw [hf] at hs
    rw [h2]
    exact hs

theorem iterBody_mono (add1 add2 : Int → Int → Option Int)
    (h : ∀ a b c, add1 a b = some c → add2 a b = some c) :
    ∀ (k : Nat) (p q : Row) (s : Row × Row),
      iterBody add1 k p q = some s → iterBody add2 k p q = some s := by
  intro k
  induction k with
  | zero => intro p q s hs; exact hs
  | succ k ih =>
    intro p q s hs
    rw [iterBody] at hs ⊢
    cases hb : loopBody add1 p q with
    | none => rw [hb] at hs; exact absurd hs (by simp)
    | some t =>
      rw [hb] at hs
      rw [loopBody_mono add1 add2 h p q t hb]
      exact ih t.1 t.2 s hs

theorem iterBody_add (add : Int → Int → Option Int) : ∀ (j d : Nat) (p q : Row),
    iterBody add (j + d) p q = (iterBody add j p q).bind (fun s => iterBody add d s.1 s.2) := by
  intro j
  induction j with
  | zero => intro d p q; simp [iterBody]
  | succ j ih =>
    intro d p q
    have e : j + 1 + d = (j + d) + 1 := by omega
    rw [e, iterBody, iterBody]
    cases loopBody add p q with
    | none => rfl
    | some t => exact ih d t.1 t.2

theorem checkedAdd64_exact (a b c : Int) (h : checkedAdd64 a b = some c) :
    exactAdd a b = some c := by
  unfold checkedAdd64 at h
  split at h
  · exact h
  · exact absurd h (by simp)

theorem checkedAdd64_wrap (a b c : Int) (h : checkedAdd64 a b = some c) :
    wrapAdd64 a b = some c := by
  unfold checkedAdd64 at h
  split at h
  · rename_i hr
    have hc : a + b = c := Option.some.inj h
    unfold wrapAdd64
    congr 1
    omega
  · exact absurd h (by simp)

theorem iterBody_checked_fifty_two :
    (iterBody checkedAdd64 52 baseRow zeroedRow).isSome = true := by
  decide!

/-- For at most 52 executions of the body no addition of the loop overflows:
the rows over 64-bit integers are the rows over exact integers. -/
theorem wrap_rows_agree (k : Nat) (hk : k < 53) :
    iterBody wrapAdd64 k baseRow zeroedRow = iterBody exactAdd k baseRow zeroedRow := by
  have h52 := iterBody_checked_fifty_two
  have e : 52 = k + (52 - k) := by omega
  rw [e, iterBody_add] at h52
  cases hc : iterBody checkedAdd64 k baseRow zeroedRow with
  | none => rw [hc] at h52; exact absurd h52 (by simp)
  | some s =>
    rw [iterBody_mono _ _ checkedAdd64_wrap k _ _ s hc,
      iterBody_mono _ _ checkedAdd64_exact k _ _ s hc]

theorem wrap_runs_agree : ∀ k < 51, runWith wrapAdd64 k = runWith exactAdd k := by
  decide!

theorem runWith_exact_fifty_one : runWith exactAdd 51 = some 14734308041386098688 := by
  decide!

theorem iterBody_wrap_fifty_three :
    (iterBody wrapAdd64 53 baseRow zeroedRow).map (fun s => s.1)
      = some [-6868106657503641600, -9079429632293339136, 5366993600003440640,
          -9079429632293339136, 8683978062187986944, 0, 8683978062120878080,
          -9079429632293339136, 5366993599936331776, -9079429632293339136] := by
  decide!

theorem iterBody_exact_fifty_three :
    (iterBody exactAdd 53 baseRow zeroedRow).map (fun s => s.1)
      = some [11578637416205910016, 9367314441416212480, 5366993600003440640,
          9367314441416212480, 8683978062187986944, 0, 8683978062120878080,
          9367314441416212480, 5366993599936331776, 9367314441416212480] := by
  decide!

theorem zeroRow_eq (stale : Row) (h : stale.length = 10) : zeroRow stale = zeroedRow := by
  obtain ⟨b0, b1, b2, b3, b4, b5, b6, b7, b8, b9, rfl⟩ := length_eq_ten h
  rfl

theorem loopBody_stale (add : Int → Int → Option Int) (p stale : Row) (h : stale.length = 10) :
    loopBody add p stale = loopBody add p zeroedRow := by
  rw [loopBody, loopBody, zeroRow_eq stale h, zeroRow_eq zeroedRow rfl]

theorem specRow_row (k : Nat) :
    ∃ q, iterBody exactAdd k baseRow zeroedRow
      = some ((List.range 10).map (specRow (k + 1)), q) := by
  obtain ⟨q, _, hq⟩ := iterBody_rowOf baseFn k zeroedRow rfl
  exact ⟨q, by rw [baseRow_eq, hq, specRow_succ]; rfl⟩

theorem sum_specRow (k : Nat) :
    runWith exactAdd k = some (∑ i in Finset.range 10, specRow (k + 1) i) := by
  rw [runWith_exact, specRow_succ]

/-! ## The calls on the memory -/

theorem getElem?_previousRow (pre : Memory) (p q : Row) :
    (pre ++ [p, q])[pre.length]? = some p := by
  rw [List.getElem?_append_right (le_refl _)]
  simp

theorem getElem?_nextRow (pre : Memory) (p q : Row) :
    (pre ++ [p, q])[pre.length + 1]? = some q := by
  rw [List.getElem?_append_right (by omega)]
  simp

theorem set_previousRow (pre : Memory) (p q p' : Row) :
    (pre ++ [p, q]).set pre.length p' = pre ++ [p', q] := by
  simp [List.set_append]

theorem set_nextRow (pre : Memory) (p q q' : Row) :
    (pre ++ [p, q]).set (pre.length + 1) q' = pre ++ [p, q'] := by
  simp [List.set_append]

theorem writeAt_nextRow (pre : Memory) (p q : Row) (i : Nat) (v : Int) (hi : i < q.length) :
    writeAt (pre ++ [p, q]) (pre.length + 1) i v = some (pre ++ [p, q.set i v]) := by
  rw [writeAt, getElem?_nextRow]
  simp only [if_pos hi, set_nextRow]

theorem zeroRowIn_fold (pre : Memory) (p : Row) : ∀ (is : List Nat) (q : Row),
    (∀ i ∈ is, i < q.length) →
    is.foldlM (fun mem i => writeAt mem (pre.length + 1) i 0) (pre ++ [p, q])
      = some (pre ++ [p, is.foldl (fun row i => row.set i 0) q]) := by
  intro is
  induction is with
  | nil => intro q _; rfl
  | cons i is ih =>
    intro q h
    rw [List.foldlM_cons, writeAt_nextRow pre p q i 0 (h i (by simp))]
    have h' : ∀ j ∈ is, j < (q.set i 0).length := by
      intro j hj
      rw [List.length_set]
      exact h j (List.mem_cons_of_mem i hj)
    exact ih (q.set i 0) h'

theorem zeroRowIn_eq (pre : Memory) (p q : Row) :
    zeroRowIn (pre.length + 1) (pre ++ [p, q]) = some (pre ++ [p, zeroRow q]) := by
  rw [zeroRowIn, getElem?_nextRow]
  exact zeroRowIn_fold pre p _ q (fun i hi => List.mem_range.1 hi)

theorem accumulateMoveIn_eq (add : Int → Int → Option Int) (pre : Memory) (p q : Row)
    (i v : Nat) :
    accumulateMoveIn add pre.length (pre.length + 1) i (pre ++ [p, q]) v
      = (accumulateMove add p i q v).map (fun q' => pre ++ [p, q']) := by
  simp only [accumulateMoveIn, accumulateMove, readAt, getElem?_nextRow, getElem?_previousRow]
  cases hq : q[i]? with
  | none => rfl
  | some a =>
    have hi : i < q.length := by
      by_contra hn
      rw [List.getElem?_eq_none (by omega)] at hq
      exact absurd hq (by simp)
    cases hp : p[v]? with
    | none => rfl
    | some b =>
      cases ha : add a b with
      | none => simp [ha]
      | some s => simp [ha, writeAt_nextRow pre p q i s hi]

theorem foldlM_embed {α β γ : Type} (emb : β → γ) (f : β → α → Option β)
    (g : γ → α → Option γ) (h : ∀ s x, g (emb s) x = (f s x).map emb) :
    ∀ (xs : List α) (s : β), xs.foldlM g (emb s) = (xs.foldlM f s).map emb := by
  intro xs
  induction xs with
  | nil => intro s; rfl
  | cons x xs ih =>
    intro s
    rw [List.foldlM_cons, List.foldlM_cons, h]
    cases f s x with
    | none => rfl
    | some t => exact ih t

theorem accumulateRowIn_eq (entries : List (Nat × List Nat)) (add : Int → Int → Option Int)
    (pre : Memory) (p q : Row) :
    accumulateRowIn entries add pre.length (pre.length + 1) (pre ++ [p, q])
      = (accumulateRowOver (mapIndex entries) add p q).map (fun q' => pre ++ [p, q']) := by
  unfold accumulateRowIn accumulateRowOver
  apply foldlM_embed (fun q' => pre ++ [p, q'])
  intro s i
  unfold accumulateMovesIn accumulateMovesOver
  apply foldlM_embed (fun q' => pre ++ [p, q'])
  intro s' v
  exact accumulateMoveIn_eq add pre p s' i v

theorem copyIn_eq (pre : Memory) (p q : Row) :
    copyIn pre.length (pre.length + 1) (pre ++ [p, q]) = some (pre ++ [copy p q, q]) := by
  simp only [copyIn, getElem?_previousRow, getElem?_nextRow, set_previousRow]

theorem loopBodyIn_eq (entries : List (Nat × List Nat)) (add : Int → Int → Option Int)
    (pre : Memory) (p q : Row) :
    loopBodyIn entries add pre.length (pre.length + 1) (pre ++ [p, q])
      = (loopBodyOver (mapIndex entries) add p q).map (fun s => pre ++ [s.1, s.2]) := by
  rw [loopBodyIn, loopBodyOver, zeroRowIn_eq]
  simp only [accumulateRowIn_eq]
  cases accumulateRowOver (mapIndex entries) add p (zeroRow q) with
  | none => rfl
  | some filled => simp [copyIn_eq]

theorem outerLoopIn_eq (entries : List (Nat × List Nat)) (add : Int → Int → Option Int)
    (L : Int) (pre : Memory) :
    ∀ (k : Nat) (n : Int) (p q : Row), (L - n).toNat = k →
      outerLoopIn entries add L n pre.length (pre.length + 1) (pre ++ [p, q])
        = (outerLoopOver (mapIndex entries) add L n p q).map
            (fun s => (s.1, pre ++ [s.2.1, s.2.2])) := by
  intro k
  induction k with
  | zero =>
    intro n p q h
    have hn : ¬ n < L := by omega
    rw [outerLoopIn, outerLoopOver, if_neg hn, if_neg hn]
    rfl
  | succ k ih =>
    intro n p q h
    have hn : n < L := by omega
    rw [outerLoopIn, outerLoopOver, if_pos hn, if_pos hn, loopBodyIn_eq]
    cases loopBodyOver (mapIndex entries) add p q with
    | none => rfl
    | some s => exact ih (n + 1) s.1 s.2 (by omega)

theorem sumRowIn_eq (add : Int → Int → Option Int) (pre : Memory) (p q : Row) :
    sumRowIn add pre.length (pre ++ [p, q]) = sumRow add p := by
  rw [sumRowIn, getElem?_previousRow]
  rfl

/-- A call on any memory, with the map held in any order, returns what the
function of the rows alone returns with the map indexed by key. -/
theorem validPhoneNumbersIn_eq (entries : List (Nat × List Nat))
    (add : Int → Int → Option Int) (m : Memory) (L : Int) :
    (validPhoneNumbersIn entries add m L).map Prod.fst
      = validPhoneNumbersOver (mapIndex entries) add L := by
  unfold validPhoneNumbersIn validPhoneNumbersOver
  by_cases h : L < 1
  · simp [h]
  · have e1 : (allocSlice (allocSlice m baseRow).1 zeroedRow).1 = m ++ [baseRow, zeroedRow] := by
      simp [allocSlice]
    have e2 : (allocSlice m baseRow).2 = m.length := rfl
    have e3 : (allocSlice (allocSlice m baseRow).1 zeroedRow).2 = m.length + 1 := by
      simp [allocSlice]
    rw [if_neg h, if_neg h, e1, e2, e3,
      outerLoopIn_eq entries add L m (L - 1).toNat 1 baseRow zeroedRow rfl]
    cases outerLoopOver (mapIndex entries) add L 1 baseRow zeroedRow with
    | none => rfl
    | some s =>
      obtain ⟨n, p, q⟩ := s
      simp only [Option.map_some', sumRowIn_eq]
      cases sumRow add p <;> rfl

theorem validPhoneNumbersIn_perm (entries : List (Nat × List Nat))
    (h : entries.Perm possibleMovesEntries) (add : Int → Int → Option Int) (m : Memory)
    (L : Int) :
    (validPhoneNumbersIn entries add m L).map Prod.fst = validPhoneNumbersWith add L := by
  rw [validPhoneNumbersIn_eq, validPhoneNumbersOver_perm entries h]

theorem runCallsIn_total (f : Int → Int → Int) :
    ∀ (calls : List (List (Nat × List Nat) × Int)) (m : Memory),
      (∀ c ∈ calls, c.1.Perm possibleMovesEntries) →
      ∃ rs m', runCallsIn (fun a b => some (f a b)) m calls = some (rs, m') ∧
        rs.map some = calls.map (fun c => validPhoneNumbersWith (fun a b => some (f a b)) c.2) := by
  intro calls
  induction calls with
  | nil => intro m _; exact ⟨[], m, rfl, rfl⟩
  | cons c rest ih =>
    intro m h
    have hc := validPhoneNumbersIn_perm c.1 (h c (by simp)) (fun a b => some (f a b)) m c.2
    obtain ⟨r, hr⟩ := validPhoneNumbersWith_total f c.2
    rw [hr] at hc
    cases hv : validPhoneNumbersIn c.1 (fun a b => some (f a b)) m c.2 with
    | none => rw [hv] at hc; exact absurd hc (by simp)
    | some s =>
      obtain ⟨r', m1⟩ := s
      rw [hv] at hc
      have hrr : r' = r := Option.some.inj hc
      subst hrr
      obtain ⟨rs, m2, h1, h2⟩ := ih m1 (fun c' hc' => h c' (List.mem_cons_of_mem c hc'))
      refine ⟨r' :: rs, m2, ?_, ?_⟩
      · simp only [runCallsIn, hv, h1]
      · simp only [List.map_cons, h2, hr]

theorem sample_calls_perm :
    ∀ c ∈ [(possibleMovesEntries, (7 : Int)), (possibleMovesEntries.reverse, 5),
        (possibleMovesEntries, 2), (possibleMovesEntries.reverse, 5)],
      c.1.Perm possibleMovesEntries := by
  intro c hc
  simp only [List.mem_cons, List.mem_singleton, List.not_mem_nil, or_false] at hc
  rcases hc with rfl | rfl | rfl | rfl
  · exact List.Perm.refl _
  · exact List.reverse_perm _
  · exact List.Perm.refl _
  · exact List.reverse_perm _

/-! ## The claims -/

/-- C1: for every integer `L ≥ 1`, over exact integers, `validPhoneNumbers L`
returns the number of lists of `L` digits in `0..9` whose first digit is in
`2..9` and in which every digit is followed by a member of its entry in
`possibleMoves`. -/
theorem validPhoneNumbers_counts_valid_sequences (L : Int) (hL : 1 ≤ L) :
    validPhoneNumbers L
      = some ((Set.ncard {ds : List Nat | (ds.length : Int) = L ∧ IsValidSequence ds} : Nat) : Int) := by
  have hset : {ds : List Nat | (ds.length : Int) = L ∧ IsValidSequence ds}
      = {ds : List Nat | ds.length = (L - 1).toNat + 1 ∧ IsValidSequence ds} := by
    ext ds
    simp only [Set.mem_setOf_eq]
    constructor
    · rintro ⟨h1, h2⟩
      exact ⟨by omega, h2⟩
    · rintro ⟨h1, h2⟩
      exact ⟨by omega, h2⟩
  rw [hset, ncard_validSequences, validPhoneNumbers_eq_length L hL]

/-- Witness of C1 at length 3. -/
theorem validPhoneNumbers_counts_valid_sequences_witness :
    (1 : Int) ≤ 3 ∧ validPhoneNumbers 3
      = some ((Set.ncard {ds : List Nat | (ds.length : Int) = 3 ∧ IsValidSequence ds} : Nat) : Int) :=
  ⟨by decide, validPhoneNumbers_counts_valid_sequences 3 (by decide)⟩

/-- C2: for every `sequenceLength < 1`, zero and negative, `validPhoneNumbers`
returns 0 and does not fail, over exact and over 64-bit integers. -/
theorem validPhoneNumbers_of_lt_one (sequenceLength : Int) (h : sequenceLength < 1) :
    validPhoneNumbers sequenceLength = some 0 ∧ validPhoneNumbers64 sequenceLength = some 0 := by
  simp [validPhoneNumbers, validPhoneNumbers64, validPhoneNumbersWith, h]

/-- Witness of C2 at the lengths 0 and -3. -/
theorem validPhoneNumbers_of_lt_one_witness :
    ((0 : Int) < 1 ∧ validPhoneNumbers 0 = some 0 ∧ validPhoneNumbers64 0 = some 0) ∧
    ((-3 : Int) < 1 ∧ validPhoneNumbers (-3) = some 0 ∧ validPhoneNumbers64 (-3) = some 0) :=
  ⟨⟨by decide, validPhoneNumbers_of_lt_one 0 (by decide)⟩,
   ⟨by decide, validPhoneNumbers_of_lt_one (-3) (by decide)⟩⟩

/-- C3: `validPhoneNumbers 7` is 952, and 952 is the number of lists of 7 digits
that do not start with 0 or 1 and in which every two consecutive digits are a
knight move on the keypad, as counted by trying every list of 7 digits. -/
theorem validPhoneNumbers_seven :
    validPhoneNumbers 7 = some 952 ∧ bruteForceCount 7 = 952 := by
  have h1 : validPhoneNumbers 7 = some 952 := by
    rw [validPhoneNumbers, validPhoneNumbersWith_eq_runWith _ 7 (by decide)]
    decide
  refine ⟨h1, ?_⟩
  have h2 := validPhoneNumbers_eq_length 7 (by decide)
  rw [h1] at h2
  have h3 : ((validSequences 6).length : Int) = 952 := (Option.some.inj h2).symm
  rw [bruteForceCount_succ 6]
  exact_mod_cast h3

/-- C4: `validPhoneNumbers 2` is 16, over exact and over 64-bit integers. -/
theorem validPhoneNumbers_two :
    validPhoneNumbers 2 = some 16 ∧ validPhoneNumbers64 2 = some 16 := by
  rw [validPhoneNumbers, validPhoneNumbers64, validPhoneNumbersWith_eq_runWith _ 2 (by decide),
    validPhoneNumbersWith_eq_runWith _ 2 (by decide)]
  decide!

/-- C5: `validPhoneNumbers 1` is 8: at `sequenceLength = 1` the outer loop
returns the rows it was entered with, whatever they are, with the counter
still at 1, so its body is not executed, and the result is the sum of the base
row `[0,0,1,1,1,1,1,1,1,1]`. -/
theorem validPhoneNumbers_one :
    validPhoneNumbers 1 = some 8 ∧
    (∀ (add : Int → Int → Option Int) (p q : Row), outerLoop add 1 1 p q = some (1, p, q)) ∧
    validPhoneNumbers 1 = sumRow exactAdd baseRow ∧
    baseRow = [0, 0, 1, 1, 1, 1, 1, 1, 1, 1] := by
  have hloop : ∀ (add : Int → Int → Option Int) (p q : Row),
      outerLoop add 1 1 p q = some (1, p, q) := by
    intro add p q
    rw [outerLoop, if_neg (by decide)]
  refine ⟨?_, hloop, ?_, rfl⟩
  · simp only [validPhoneNumbers, validPhoneNumbersWith, hloop]
    decide
  · simp only [validPhoneNumbers, validPhoneNumbersWith, hloop]
    rfl

/-- C6, as stated, fails on a platform whose `int` has 64 bits: the value
`validPhoneNumbers 52` returns there is `-3712436032323452928`, while the sum
of `Row_52[i]` over `i` in `0..9` is `14734308041386098688`; and the slice
`previousRow` at the exit of the loop of `validPhoneNumbers 54` is not `Row_54`
(its entry at the index 0 is `-6868106657503641600`, and `Row_54[0]` is
`11578637416205910016`). -/
theorem validPhoneNumbers64_not_specRow :
    validPhoneNumbers64 52 = some (-3712436032323452928) ∧
    ∑ i in Finset.range 10, specRow 52 i = 14734308041386098688 ∧
    validPhoneNumbers64 52 ≠ some (∑ i in Finset.range 10, specRow 52 i) ∧
    (∃ p q, outerLoop wrapAdd64 54 1 baseRow zeroedRow = some (54, p, q) ∧
      p[0]? = some (-6868106657503641600) ∧
      ((List.range 10).map (specRow 54))[0]? = some 11578637416205910016 ∧
      p ≠ (List.range 10).map (specRow 54)) := by
  have h64 : validPhoneNumbers64 52 = some (-3712436032323452928) := by
    rw [validPhoneNumbers64, validPhoneNumbersWith_eq_runWith _ 52 (by decide)]
    exact runWith_wrap_fifty_one
  have hsum : ∑ i in Finset.range 10, specRow 52 i = 14734308041386098688 := by
    have h := sum_specRow 51
    rw [runWith_exact_fifty_one] at h
    exact (Option.some.inj h).symm
  have hrow : (List.range 10).map (specRow 54)
      = [11578637416205910016, 9367314441416212480, 5366993600003440640,
          9367314441416212480, 8683978062187986944, 0, 8683978062120878080,
          9367314441416212480, 5366993599936331776, 9367314441416212480] := by
    obtain ⟨q, hq⟩ := specRow_row 53
    have h := iterBody_exact_fifty_three
    rw [hq] at h
    exact Option.some.inj h
  refine ⟨h64, hsum, ?_, ?_⟩
  · rw [h64, hsum]
    decide
  · rw [outerLoop_eq_iterBody wrapAdd64 54 53 1 baseRow zeroedRow (by decide)]
    have h := iterBody_wrap_fifty_three
    cases hi : iterBody wrapAdd64 53 baseRow zeroedRow with
    | none => rw [hi] at h; exact absurd h (by simp)
    | some s =>
      rw [hi] at h
      have hs : s.1 = _ := Option.some.inj h
      refine ⟨s.1, s.2, rfl, ?_, ?_, ?_⟩
      · rw [hs]; rfl
      · rw [hrow]; rfl
      · rw [hs, hrow]
        decide

/-- C6, amended: the two-buffer loop refines the recurrence `Row_L` (`specRow`)
as long as no addition overflows. Over exact integers, for every `L ≥ 1` the
loop of `validPhoneNumbers L` exits with the counter at `L` and with
`previousRow` equal to `Row_L` at the indices `0..9`, and the value returned
is the sum of `Row_L[i]` over `i` in `0..9`. Over 64-bit integers whose
addition wraps, the first holds for every `L` with `1 ≤ L ≤ 53` and the second
for every `L` with `1 ≤ L ≤ 51`. Over any addition, the contents `nextRow` has
when the body of the loop is entered do not contribute: the body yields the
same rows as from a zeroed `nextRow`. -/
theorem validPhoneNumbers_refines_specRow (L : Nat) (hL : 1 ≤ L) :
    (∃ q, outerLoop exactAdd L 1 baseRow zeroedRow
        = some ((L : Int), (List.range 10).map (specRow L), q)) ∧
    validPhoneNumbers L = some (∑ i in Finset.range 10, specRow L i) ∧
    (L ≤ 53 → ∃ q, outerLoop wrapAdd64 L 1 baseRow zeroedRow
        = some ((L : Int), (List.range 10).map (specRow L), q)) ∧
    (L ≤ 51 → validPhoneNumbers64 L = some (∑ i in Finset.range 10, specRow L i)) ∧
    (∀ (add : Int → Int → Option Int) (p stale : Row), stale.length = 10 →
        loopBody add p stale = loopBody add p zeroedRow) := by
  obtain ⟨k, rfl⟩ : ∃ k, L = k + 1 := ⟨L - 1, by omega⟩
  have hk : (((k + 1 : Nat) : Int) - 1).toNat = k := by omega
  have hmax : max 1 ((k + 1 : Nat) : Int) = ((k + 1 : Nat) : Int) := by omega
  obtain ⟨q, hq⟩ := specRow_row k
  refine ⟨⟨q, ?_⟩, ?_, fun h53 => ⟨q, ?_⟩, fun h51 => ?_, loopBody_stale⟩
  · rw [outerLoop_eq_iterBody exactAdd _ k 1 baseRow zeroedRow (by omega), hq, hmax]
    rfl
  · rw [validPhoneNumbers, validPhoneNumbersWith_eq_runWith _ _ (by omega), hk, sum_specRow]
  · rw [outerLoop_eq_iterBody wrapAdd64 _ k 1 baseRow zeroedRow (by omega),
      wrap_rows_agree k (by omega), hq, hmax]
    rfl
  · rw [validPhoneNumbers64, validPhoneNumbersWith_eq_runWith _ _ (by omega), hk,
      wrap_runs_agree k (by omega), sum_specRow]

/-- Witness of the amended C6 at length 51, the last length at which all its
parts hold over 64-bit integers. -/
theorem validPhoneNumbers_refines_specRow_witness :
    1 ≤ 51 ∧ 51 ≤ 53 ∧ 51 ≤ 51 ∧
    (∃ q, outerLoop exactAdd (51 : Nat) 1 baseRow zeroedRow
        = some (((51 : Nat) : Int), (List.range 10).map (specRow 51), q)) ∧
    validPhoneNumbers (51 : Nat) = some (∑ i in Finset.range 10, specRow 51 i) ∧
    (∃ q, outerLoop wrapAdd64 (51 : Nat) 1 baseRow zeroedRow
        = some (((51 : Nat) : Int), (List.range 10).map (specRow 51), q)) ∧
    validPhoneNumbers64 (51 : Nat) = some (∑ i in Finset.range 10, specRow 51 i) ∧
    (∀ (add : Int → Int → Option Int) (p stale : Row), stale.length = 10 →
        loopBody add p stale = loopBody add p zeroedRow) :=
  ⟨by decide, by decide, by decide,
   (validPhoneNumbers_refines_specRow 51 (by decide)).1,
   (validPhoneNumbers_refines_specRow 51 (by decide)).2.1,
   (validPhoneNumbers_refines_specRow 51 (by decide)).2.2.1 (by decide),
   (validPhoneNumbers_refines_specRow 51 (by decide)).2.2.2.1 (by decide),
   (validPhoneNumbers_refines_specRow 51 (by decide)).2.2.2.2⟩

/-- C7: the table `possibleMoves` is the knight-move relation of the keypad
with the digits 1 to 9 at row `(d-1) / 3`, column `(d-1) % 3` and the digit 0
at row 3, column 1: for digits `a`, `b` in `0..9`, `b` is in `possibleMoves[a]`
exactly when their row distance and column distance are 1 and 2 in some
order; and the list of `a` has no repeated digit. -/
theorem possibleMoves_iff_isKnightMove (a b : Nat) (ha : a ≤ 9) (hb : b ≤ 9) :
    (b ∈ possibleMoves a ↔
      ((gridDistance (keyRow a) (keyRow b) = 1 ∧ gridDistance (keyCol a) (keyCol b) = 2) ∨
       (gridDistance (keyRow a) (keyRow b) = 2 ∧ gridDistance (keyCol a) (keyCol b) = 1))) ∧
    (possibleMoves a).Nodup ∧
    keyRow a = (if a = 0 then 3 else (a - 1) / 3) ∧ keyCol a = (if a = 0 then 1 else (a - 1) % 3) := by
  refine ⟨?_, nodup_possibleMoves a, rfl, rfl⟩
  have h := isKnightMove_iff_table a (by omega) b (by omega)
  rw [← h, isKnightMove, decide_eq_true_iff]

/-- Witness of C7 at the digits 6 and 7. -/
theorem possibleMoves_iff_isKnightMove_witness :
    6 ≤ 9 ∧ 7 ≤ 9 ∧
    ((7 ∈ possibleMoves 6 ↔
      ((gridDistance (keyRow 6) (keyRow 7) = 1 ∧ gridDistance (keyCol 6) (keyCol 7) = 2) ∨
       (gridDistance (keyRow 6) (keyRow 7) = 2 ∧ gridDistance (keyCol 6) (keyCol 7) = 1))) ∧
    (possibleMoves 6).Nodup ∧
    keyRow 6 = (if 6 = 0 then 3 else (6 - 1) / 3) ∧ keyCol 6 = (if 6 = 0 then 1 else (6 - 1) % 3)) :=
  ⟨by decide, by decide, possibleMoves_iff_isKnightMove 6 7 (by decide) (by decide)⟩

/-- C8, as stated, fails: with 64-bit wrapping addition `validPhoneNumbers 52`
is negative, so the result is not non-negative for every length. -/
theorem validPhoneNumbers64_negative :
    validPhoneNumbers64 52 = some (-3712436032323452928) ∧
    ¬ (∀ sequenceLength : Int, ∃ r, validPhoneNumbers64 sequenceLength = some r ∧ 0 ≤ r) := by
  have h : validPhoneNumbers64 52 = some (-3712436032323452928) := by
    rw [validPhoneNumbers64, validPhoneNumbersWith_eq_runWith _ 52 (by decide)]
    exact runWith_wrap_fifty_one
  refine ⟨h, fun hall => ?_⟩
  obtain ⟨r, hr, hpos⟩ := hall 52
  rw [h] at hr
  have := Option.some.inj hr
  omega

/-- C8, amended: with 64-bit wrapping addition, for every `sequenceLength ≤ 51`
`validPhoneNumbers` returns a value that is at least 0. -/
theorem validPhoneNumbers64_nonneg (sequenceLength : Int) (h : sequenceLength ≤ 51) :
    ∃ r, validPhoneNumbers64 sequenceLength = some r ∧ 0 ≤ r := by
  by_cases h1 : sequenceLength < 1
  · exact ⟨0, by simp [validPhoneNumbers64, validPhoneNumbersWith, h1], le_refl 0⟩
  · have hk : (sequenceLength - 1).toNat < 51 := by omega
    have hn := runWith_wrap_nonneg _ hk
    rw [validPhoneNumbers64, validPhoneNumbersWith_eq_runWith _ _ (by omega)]
    cases hr : runWith wrapAdd64 (sequenceLength - 1).toNat with
    | none => rw [hr] at hn; simp at hn
    | some r => rw [hr] at hn; exact ⟨r, rfl, by simpa using hn⟩

/-- Witness of the amended C8 at length 51. -/
theorem validPhoneNumbers64_nonneg_witness :
    (51 : Int) ≤ 51 ∧ ∃ r, validPhoneNumbers64 51 = some r ∧ 0 ≤ r :=
  ⟨by decide, validPhoneNumbers64_nonneg 51 (by decide)⟩

/-- C9: for every `L` with `1 ≤ L ≤ 10` no addition of `validPhoneNumbers L`
overflows a signed 64-bit integer: the run that stops at an overflowing
addition returns, with the result over exact integers; so does the run with
wrapping addition; and every entry of the final `previousRow` and the result
lie in `[0, 2^63)`. -/
theorem validPhoneNumbers_no_overflow_upto_ten (L : Int) (h1 : 1 ≤ L) (h10 : L ≤ 10) :
    validPhoneNumbersChecked64 L = validPhoneNumbers L ∧
    validPhoneNumbers64 L = validPhoneNumbers L ∧
    ∃ n p q r, outerLoop exactAdd L 1 baseRow zeroedRow = some (n, p, q) ∧
      (∀ x ∈ p, 0 ≤ x ∧ x < 2 ^ 63) ∧
      validPhoneNumbers L = some r ∧ 0 ≤ r ∧ r < 2 ^ 63 := by
  have hk : (L - 1).toNat < 10 := by omega
  obtain ⟨hc, hw⟩ := small_runs_agree _ hk
  have hrows := small_rows_in_range _ hk
  obtain ⟨hr0, hr1⟩ := small_results_in_range _ hk
  simp only [validPhoneNumbersChecked64, validPhoneNumbers64, validPhoneNumbers,
    validPhoneNumbersWith_eq_runWith _ L h1]
  refine ⟨hc, hw, ?_⟩
  rw [outerLoop_eq_iterBody exactAdd L (L - 1).toNat 1 baseRow zeroedRow rfl]
  cases hi : iterBody exactAdd (L - 1).toNat baseRow zeroedRow with
  | none => rw [hi] at hrows; simp at hrows
  | some s =>
    rw [hi] at hrows
    have hrows' : ∀ x ∈ s.1, 0 ≤ x ∧ x < 2 ^ 63 := by simpa using hrows
    cases hr : runWith exactAdd (L - 1).toNat with
    | none => rw [hr] at hr0; simp at hr0
    | some r =>
      rw [hr] at hr0 hr1
      exact ⟨max 1 L, s.1, s.2, r, rfl, hrows', rfl, by simpa using hr0, by simpa using hr1⟩

/-- Witness of C9 at length 10. -/
theorem validPhoneNumbers_no_overflow_upto_ten_witness :
    (1 : Int) ≤ 10 ∧ (10 : Int) ≤ 10 ∧
    (validPhoneNumbersChecked64 10 = validPhoneNumbers 10 ∧
    validPhoneNumbers64 10 = validPhoneNumbers 10 ∧
    ∃ n p q r, outerLoop exactAdd 10 1 baseRow zeroedRow = some (n, p, q) ∧
      (∀ x ∈ p, 0 ≤ x ∧ x < 2 ^ 63) ∧
      validPhoneNumbers 10 = some r ∧ 0 ≤ r ∧ r < 2 ^ 63) :=
  ⟨by decide, by decide, validPhoneNumbers_no_overflow_upto_ten 10 (by decide) (by decide)⟩

/-- C10: the driver writes exactly 10 lines; for every `i` in `1..10` the
`i`-th line is `number of valid phone numbers of length: `, the decimal form
of `i`, ` is `, the decimal form of `validPhoneNumbers i`, and a newline; the
lines are in ascending order of `i`, with the counts 8, 16, 35, 82, 182, 428,
952, 2240, 4984, 11728. -/
theorem main_prints_ten_lines :
    ∃ out, main = some out ∧ out.length = 10 ∧
      (∀ i : Nat, 1 ≤ i → i ≤ 10 →
        ∃ r, validPhoneNumbers i = some r ∧ validPhoneNumbers64 i = some r ∧
          out[i - 1]? = some ("number of valid phone numbers of length: "
            ++ toString (i : Int) ++ " is " ++ toString r ++ "\n")) ∧
      out =
        ["number of valid phone numbers of length: 1 is 8\n",
         "number of valid phone numbers of length: 2 is 16\n",
         "number of valid phone numbers of length: 3 is 35\n",
         "number of valid phone numbers of length: 4 is 82\n",
         "number of valid phone numbers of length: 5 is 182\n",
         "number of valid phone numbers of length: 6 is 428\n",
         "number of valid phone numbers of length: 7 is 952\n",
         "number of valid phone numbers of length: 8 is 2240\n",
         "number of valid phone numbers of length: 9 is 4984\n",
         "number of valid phone numbers of length: 10 is 11728\n"] := by
  refine ⟨_, main_eq, rfl, ?_, rfl⟩
  intro i h1 h10
  obtain ⟨r, _, he, hw, hl⟩ := main_line_values (i - 1) (by omega)
  have hi : i - 1 + 1 = i := by omega
  have hk : ((i : Int) - 1).toNat = i - 1 := by omega
  rw [hi] at hl
  refine ⟨r, ?_, ?_, hl⟩
  · rw [validPhoneNumbers, validPhoneNumbersWith_eq_runWith _ _ (by omega), hk, he]
  · rw [validPhoneNumbers64, validPhoneNumbersWith_eq_runWith _ _ (by omega), hk, hw]

/-- C11: `validPhoneNumbers` is deterministic and keeps no state between
calls. A call with the argument `L` that starts on any memory (`m1`, `m2`:
whatever earlier calls left there), while the runtime holds the entries of the
map `possibleMoves` in any order (`e1`, `e2`), returns the value of
`validPhoneNumbers L`, a function of `L` alone, over any addition of `int`; so
any two such calls return the same value, and over 64-bit integers they do
return one. In a sequence of calls, each starting on the memory the call
before it left, every call returns the value of `validPhoneNumbers` at its own
argument, over 64-bit and over exact integers. -/
theorem validPhoneNumbers_deterministic (add : Int → Int → Option Int) (L : Int)
    (e1 e2 : List (Nat × List Nat)) (h1 : e1.Perm possibleMovesEntries)
    (h2 : e2.Perm possibleMovesEntries) (m1 m2 : Memory)
    (calls : List (List (Nat × List Nat) × Int))
    (hcalls : ∀ c ∈ calls, c.1.Perm possibleMovesEntries) :
    (validPhoneNumbersIn e1 add m1 L).map Prod.fst = validPhoneNumbersWith add L ∧
    (validPhoneNumbersIn e1 add m1 L).map Prod.fst
      = (validPhoneNumbersIn e2 add m2 L).map Prod.fst ∧
    (∃ r, validPhoneNumbers64 L = some r ∧
      (∃ m', validPhoneNumbersIn e1 wrapAdd64 m1 L = some (r, m')) ∧
      (∃ m', validPhoneNumbersIn e2 wrapAdd64 m2 L = some (r, m'))) ∧
    (∃ rs m', runCallsIn wrapAdd64 m1 calls = some (rs, m') ∧
      rs.map some = calls.map (fun c => validPhoneNumbers64 c.2)) ∧
    (∃ rs m', runCallsIn exactAdd m1 calls = some (rs, m') ∧
      rs.map some = calls.map (fun c => validPhoneNumbers c.2)) := by
  have k1 := validPhoneNumbersIn_perm e1 h1 add m1 L
  have k2 := validPhoneNumbersIn_perm e2 h2 add m2 L
  refine ⟨k1, k1.trans k2.symm, ?_,
    runCallsIn_total (fun a b => (a + b + 2 ^ 63) % 2 ^ 64 - 2 ^ 63) calls m1 hcalls,
    runCallsIn_total (fun a b => a + b) calls m1 hcalls⟩
  obtain ⟨r, hr⟩ := validPhoneNumbersWith_total (fun a b => (a + b + 2 ^ 63) % 2 ^ 64 - 2 ^ 63) L
  have w1 := validPhoneNumbersIn_perm e1 h1 wrapAdd64 m1 L
  have w2 := validPhoneNumbersIn_perm e2 h2 wrapAdd64 m2 L
  have hr' : validPhoneNumbersWith wrapAdd64 L = some r := hr
  rw [hr'] at w1 w2
  refine ⟨r, hr, ?_, ?_⟩
  · cases hv : validPhoneNumbersIn e1 wrapAdd64 m1 L with
    | none => rw [hv] at w1; exact absurd w1 (by simp)
    | some s =>
      rw [hv] at w1
      have : s.1 = r := Option.some.inj w1
      exact ⟨s.2, by rw [← this]⟩
  · cases hv : validPhoneNumbersIn e2 wrapAdd64 m2 L with
    | none => rw [hv] at w2; exact absurd w2 (by simp)
    | some s =>
      rw [hv] at w2
      have : s.1 = r := Option.some.inj w2
      exact ⟨s.2, by rw [← this]⟩

/-- Witness of C11: calls at length 5 over 64-bit integers, one with the
entries of the map in reverse order on a memory that holds a slice already,
one with the entries as written on the empty memory, and a sequence of four
calls at the lengths 7, 5, 2 and 5. -/
theorem validPhoneNumbers_deterministic_witness :
    possibleMovesEntries.reverse.Perm possibleMovesEntries ∧
    possibleMovesEntries.Perm possibleMovesEntries ∧
    (∀ c ∈ [(possibleMovesEntries, (7 : Int)), (possibleMovesEntries.reverse, 5),
        (possibleMovesEntries, 2), (possibleMovesEntries.reverse, 5)],
      c.1.Perm possibleMovesEntries) ∧
    ((validPhoneNumbersIn possibleMovesEntries.reverse wrapAdd64 [[7, 7]] 5).map Prod.fst
      = validPhoneNumbersWith wrapAdd64 5 ∧
    (validPhoneNumbersIn possibleMovesEntries.reverse wrapAdd64 [[7, 7]] 5).map Prod.fst
      = (validPhoneNumbersIn possibleMovesEntries wrapAdd64 [] 5).map Prod.fst ∧
    (∃ r, validPhoneNumbers64 5 = some r ∧
      (∃ m', validPhoneNumbersIn possibleMovesEntries.reverse wrapAdd64 [[7, 7]] 5
        = some (r, m')) ∧
      (∃ m', validPhoneNumbersIn possibleMovesEntries wrapAdd64 [] 5 = some (r, m'))) ∧
    (∃ rs m', runCallsIn wrapAdd64 [[7, 7]]
        [(possibleMovesEntries, (7 : Int)), (possibleMovesEntries.reverse, 5),
          (possibleMovesEntries, 2), (possibleMovesEntries.reverse, 5)] = some (rs, m') ∧
      rs.map some
        = [(possibleMovesEntries, (7 : Int)), (possibleMovesEntries.reverse, 5),
            (possibleMovesEntries, 2), (possibleMovesEntries.reverse, 5)].map
          (fun c => validPhoneNumbers64 c.2)) ∧
    (∃ rs m', runCallsIn exactAdd [[7, 7]]
        [(possibleMovesEntries, (7 : Int)), (possibleMovesEntries.reverse, 5),
          (possibleMovesEntries, 2), (possibleMovesEntries.reverse, 5)] = some (rs, m') ∧
      rs.map some
        = [(possibleMovesEntries, (7 : Int)), (possibleMovesEntries.reverse, 5),
            (possibleMovesEntries, 2), (possibleMovesEntries.reverse, 5)].map
          (fun c => validPhoneNumbers c.2))) :=
  ⟨List.reverse_perm _, List.Perm.refl _, sample_calls_perm,
   validPhoneNumbers_deterministic wrapAdd64 5 possibleMovesEntries.reverse possibleMovesEntries
     (List.reverse_perm _) (List.Perm.refl _) [[7, 7]] [] _ sample_calls_perm⟩

/-- C12, evaluated: the row that `validPhoneNumbers 2` sums is
`[2,2,2,2,2,0,1,2,1,2]`, while the numbers of valid sequences of length 2 that
start with the digits 0 to 9 are `0,0,2,2,3,0,3,2,2,2`; the row that
`validPhoneNumbers 3` sums has 3 at the index 3, while 5 valid sequences of
length 3 start with the digit 3. The values returned, 16 and 35, are the
totals of both. -/
theorem previousRow_not_by_first_digit :
    outerLoop exactAdd 2 1 baseRow zeroedRow
      = some (2, [2, 2, 2, 2, 2, 0, 1, 2, 1, 2], [2, 2, 2, 2, 2, 0, 1, 2, 1, 2]) ∧
    (List.range 10).map (fun i => Set.ncard
        {ds : List Nat | ds.length = 2 ∧ IsValidSequence ds ∧ ds.head? = some i})
      = [0, 0, 2, 2, 3, 0, 3, 2, 2, 2] ∧
    (∃ p q, outerLoop exactAdd 3 1 baseRow zeroedRow = some (3, p, q) ∧ p[3]? = some 3) ∧
    Set.ncard {ds : List Nat | ds.length = 3 ∧ IsValidSequence ds ∧ ds.head? = some 3} = 5 ∧
    validPhoneNumbers 2 = some 16 ∧ validPhoneNumbers 3 = some 35 := by
  refine ⟨?_, ?_, ⟨[3, 2, 4, 3, 6, 0, 6, 3, 4, 4], [3, 2, 4, 3, 6, 0, 6, 3, 4, 4], ?_, rfl⟩,
    ?_, ?_, ?_⟩
  · rw [outerLoop_eq_iterBody exactAdd 2 1 1 baseRow zeroedRow (by decide), iterBody_one]
    rfl
  · simp only [List.range, List.range.loop, List.map_cons, List.map_nil,
      ncard_validSequences_first_lt 0 1 (by decide), ncard_validSequences_first_lt 1 1 (by decide),
      ncard_validSequences_first 2 1 (by decide) (by decide),
      ncard_validSequences_first 3 1 (by decide) (by decide),
      ncard_validSequences_first 4 1 (by decide) (by decide),
      ncard_validSequences_first 5 1 (by decide) (by decide),
      ncard_validSequences_first 6 1 (by decide) (by decide),
      ncard_validSequences_first 7 1 (by decide) (by decide),
      ncard_validSequences_first 8 1 (by decide) (by decide),
      ncard_validSequences_first 9 1 (by decide) (by decide)]
    decide
  · rw [outerLoop_eq_iterBody exactAdd 3 2 1 baseRow zeroedRow (by decide), iterBody_two]
    rfl
  · rw [ncard_validSequences_first 3 2 (by decide) (by decide)]
    decide
  · rw [validPhoneNumbers, validPhoneNumbersWith_eq_runWith _ 2 (by decide)]
    decide!
  · rw [validPhoneNumbers, validPhoneNumbersWith_eq_runWith _ 3 (by decide)]
    decide!

/-- C13: over exact integers, for every `L ≥ 1` and every digit `i` in `0..9`,
the loop of `validPhoneNumbers L` exits, after `L - 1` executions of its body,
with a `previousRow` whose entry at the index `i` is the number of lists of
`L` digits with the first digit in `2..9`, every digit followed by a member
of its entry in `possibleMoves`, and the last digit `i`. -/
theorem previousRow_counts_by_last_digit (L : Int) (hL : 1 ≤ L) (i : Nat) (hi : i ≤ 9) :
    ∃ p q, outerLoop exactAdd L 1 baseRow zeroedRow = some (L, p, q) ∧
      outerLoopSteps exactAdd L 1 baseRow zeroedRow 0 = some ((L - 1).toNat, L, p, q) ∧
      p[i]? = some ((Set.ncard {ds : List Nat |
        (ds.length : Int) = L ∧ IsValidSequence ds ∧ ds.getLast? = some i} : Nat) : Int) := by
  have hset : {ds : List Nat | (ds.length : Int) = L ∧ IsValidSequence ds ∧ ds.getLast? = some i}
      = {ds : List Nat | ds.length = (L - 1).toNat + 1 ∧ IsValidSequence ds ∧
          ds.getLast? = some i} := by
    ext ds
    simp only [Set.mem_setOf_eq]
    constructor
    · rintro ⟨h1, h2⟩
      exact ⟨by omega, h2⟩
    · rintro ⟨h1, h2⟩
      exact ⟨by omega, h2⟩
  obtain ⟨q, _, hq⟩ := iterBody_rowOf baseFn (L - 1).toNat zeroedRow rfl
  have hmax : max 1 L = L := by omega
  refine ⟨rowOf (specStep^[(L - 1).toNat] baseFn), q, ?_, ?_, ?_⟩
  · rw [outerLoop_eq_iterBody exactAdd L (L - 1).toNat 1 baseRow zeroedRow rfl, baseRow_eq, hq,
      hmax]
    rfl
  · rw [outerLoopSteps_eq_iterBody exactAdd L (L - 1).toNat 1 baseRow zeroedRow 0 rfl,
      baseRow_eq, hq, hmax]
    simp
  · rw [hset, ncard_validSequences_last, length_filter_validSequences i _ hi,
      rowOf_getElem _ i hi]

/-- Witness of C13 at length 3 and the digit 4. -/
theorem previousRow_counts_by_last_digit_witness :
    (1 : Int) ≤ 3 ∧ 4 ≤ 9 ∧
    ∃ p q, outerLoop exactAdd 3 1 baseRow zeroedRow = some (3, p, q) ∧
      outerLoopSteps exactAdd 3 1 baseRow zeroedRow 0 = some (((3 : Int) - 1).toNat, 3, p, q) ∧
      p[4]? = some ((Set.ncard {ds : List Nat |
        (ds.length : Int) = 3 ∧ IsValidSequence ds ∧ ds.getLast? = some 4} : Nat) : Int) :=
  ⟨by decide, by decide, previousRow_counts_by_last_digit 3 (by decide) 4 (by decide)⟩

/-- C14: the result agrees with the scheme of the source comment: with
`U_1[c] = 1` for every digit and `U_L[c]` the sum of `U_(L-1)[v]` over the `v`
in `possibleMoves[c]` (`specU`), for every `L ≥ 1`, over exact integers,
`validPhoneNumbers L` is the sum of `U_L[c]` over `c` in `2..9`. -/
theorem validPhoneNumbers_eq_sum_specU (L : Int) (hL : 1 ≤ L) :
    validPhoneNumbers L = some (∑ c in Finset.Icc 2 9, specU L.toNat c) := by
  rw [validPhoneNumbers, validPhoneNumbersWith_eq_runWith _ L hL, runWith_exact_eq_sum_specU]
  have e : (L - 1).toNat + 1 = L.toNat := by omega
  rw [e]

/-- Witness of C14 at length 3. -/
theorem validPhoneNumbers_eq_sum_specU_witness :
    (1 : Int) ≤ 3 ∧
    validPhoneNumbers 3 = some (∑ c in Finset.Icc 2 9, specU (3 : Int).toNat c) :=
  ⟨by decide, validPhoneNumbers_eq_sum_specU 3 (by decide)⟩

/-- C15: the table `possibleMoves` is symmetric and irreflexive: for digits
`a`, `b` in `0..9`, `b` is in `possibleMoves[a]` exactly when `a` is in
`possibleMoves[b]`, and `a` is not in `possibleMoves[a]`. -/
theorem possibleMoves_symmetric_irreflexive (a b : Nat) (ha : a ≤ 9) (hb : b ≤ 9) :
    (b ∈ possibleMoves a ↔ a ∈ possibleMoves b) ∧ a ∉ possibleMoves a :=
  possibleMoves_symm_table a (by omega) b (by omega)

/-- Witness of C15 at the digits 4 and 9. -/
theorem possibleMoves_symmetric_irreflexive_witness :
    4 ≤ 9 ∧ 9 ≤ 9 ∧ ((9 ∈ possibleMoves 4 ↔ 4 ∈ possibleMoves 9) ∧ 4 ∉ possibleMoves 4) :=
  ⟨by decide, by decide, possibleMoves_symmetric_irreflexive 4 9 (by decide) (by decide)⟩

/-- C16: over exact integers, for every `L ≥ 1`, with `a = validPhoneNumbers L`
and `b = validPhoneNumbers (L + 1)`: `2 * a ≤ b ≤ 3 * a`, so `a ≤ b`, and
`2 ^ (L + 2) ≤ a`. -/
theorem validPhoneNumbers_growth (L : Int) (hL : 1 ≤ L) :
    ∃ a b, validPhoneNumbers L = some a ∧ validPhoneNumbers (L + 1) = some b ∧
      2 * a ≤ b ∧ b ≤ 3 * a ∧ a ≤ b ∧ (2 : Int) ^ (L.toNat + 2) ≤ a := by
  have e1 : (L + 1 - 1).toNat = (L - 1).toNat + 1 := by omega
  have e2 : L.toNat + 2 = (L - 1).toNat + 3 := by omega
  have hstep := rowSum_step (L - 1).toNat
  have hpow := rowSum_pow (L - 1).toNat
  have hnonneg : (0 : Int) ≤ 2 ^ ((L - 1).toNat + 3) := by positivity
  refine ⟨_, _, ?_, ?_, hstep.1, hstep.2, by omega, by rw [e2]; exact hpow⟩
  · rw [validPhoneNumbers, validPhoneNumbersWith_eq_runWith _ L hL, runWith_exact]
  · rw [validPhoneNumbers, validPhoneNumbersWith_eq_runWith _ (L + 1) (by omega), e1,
      runWith_exact]

/-- Witness of C16 at length 4. -/
theorem validPhoneNumbers_growth_witness :
    (1 : Int) ≤ 4 ∧
    ∃ a b, validPhoneNumbers 4 = some a ∧ validPhoneNumbers (4 + 1) = some b ∧
      2 * a ≤ b ∧ b ≤ 3 * a ∧ a ≤ b ∧ (2 : Int) ^ ((4 : Int).toNat + 2) ≤ a :=
  ⟨by decide, validPhoneNumbers_growth 4 (by decide)⟩

/-- C17: `validPhoneNumbers` returns for every integer `sequenceLength`, over
exact and over 64-bit integers, so it terminates and no slice access is out of
range; for `sequenceLength ≥ 1` the body of its outer loop is executed exactly
`sequenceLength - 1` times and the loop exits with the counter at
`sequenceLength`; and every index read from `previousRow`, a member of a list
of `possibleMoves`, is in `0..9`. -/
theorem validPhoneNumbers_terminates (sequenceLength : Int) :
    (∃ r, validPhoneNumbers sequenceLength = some r) ∧
    (∃ r, validPhoneNumbers64 sequenceLength = some r) ∧
    (1 ≤ sequenceLength →
      (∃ p q, outerLoopSteps exactAdd sequenceLength 1 baseRow zeroedRow 0
          = some ((sequenceLength - 1).toNat, sequenceLength, p, q) ∧
        outerLoop exactAdd sequenceLength 1 baseRow zeroedRow = some (sequenceLength, p, q)) ∧
      (∃ p q, outerLoopSteps wrapAdd64 sequenceLength 1 baseRow zeroedRow 0
          = some ((sequenceLength - 1).toNat, sequenceLength, p, q) ∧
        outerLoop wrapAdd64 sequenceLength 1 baseRow zeroedRow
          = some (sequenceLength, p, q))) ∧
    (∀ i v, v ∈ possibleMoves i → v ≤ 9) :=
  ⟨validPhoneNumbersWith_total (fun a b => a + b) sequenceLength,
   validPhoneNumbersWith_total (fun a b => (a + b + 2 ^ 63) % 2 ^ 64 - 2 ^ 63) sequenceLength,
   fun h => ⟨outerLoopSteps_count (fun a b => a + b) sequenceLength h,
     outerLoopSteps_count (fun a b => (a + b + 2 ^ 63) % 2 ^ 64 - 2 ^ 63) sequenceLength h⟩,
   fun _ _ h => tableMove_le h⟩

/-- C18: over exact integers, for every `L ≥ 1` the two rows at the exit of the
loop of `validPhoneNumbers L` have 10 entries, all at least 0; for `L = 1` the
row summed is the base row, 0 at the indices 0 and 1 and 1 at the indices 2 to
9; and for every `L ≥ 2` its entry at index 5 is 0. -/
theorem validPhoneNumbers_rows (L : Int) (hL : 1 ≤ L) :
    ∃ p q, outerLoop exactAdd L 1 baseRow zeroedRow = some (L, p, q) ∧
      p.length = 10 ∧ q.length = 10 ∧ (∀ x ∈ p, 0 ≤ x) ∧ (∀ x ∈ q, 0 ≤ x) ∧
      (L = 1 → p = [0, 0, 1, 1, 1, 1, 1, 1, 1, 1]) ∧
      (2 ≤ L → p[5]? = some 0) := by
  rw [outerLoop_eq_iterBody exactAdd L (L - 1).toNat 1 baseRow zeroedRow rfl]
  have hmax : max 1 L = L := by omega
  rw [hmax]
  cases hk : (L - 1).toNat with
  | zero =>
    refine ⟨baseRow, zeroedRow, rfl, rfl, rfl, by decide, by decide, fun _ => rfl, fun h => ?_⟩
    omega
  | succ k =>
    have hrow : ∀ x ∈ rowOf (specStep^[k + 1] baseFn), 0 ≤ x := by
      intro x hx
      obtain ⟨i, _, rfl⟩ := List.mem_map.1 hx
      exact iterate_nonneg (k + 1) i
    refine ⟨_, _, ?_, length_rowOf _, length_rowOf _, hrow, hrow, fun h => ?_, fun _ => ?_⟩
    · rw [baseRow_eq, iterBody_rowOf_succ k baseFn zeroedRow rfl]
      rfl
    · omega
    · rw [rowOf_getElem _ 5 (by decide), iterate_five k]

/-- Witness of C18 at length 6. -/
theorem validPhoneNumbers_rows_witness :
    (1 : Int) ≤ 6 ∧
    ∃ p q, outerLoop exactAdd 6 1 baseRow zeroedRow = some (6, p, q) ∧
      p.length = 10 ∧ q.length = 10 ∧ (∀ x ∈ p, 0 ≤ x) ∧ (∀ x ∈ q, 0 ≤ x) ∧
      ((6 : Int) = 1 → p = [0, 0, 1, 1, 1, 1, 1, 1, 1, 1]) ∧
      ((2 : Int) ≤ 6 → p[5]? = some 0) :=
  ⟨by decide, validPhoneNumbers_rows 6 (by decide)⟩

end KnightlyPhoneNumbers
